import Mathlib

/-!
Verification of the composite-key addressing layer and the keychain
manifest/domain-registry protocol of the `enveloper` repository.

Python strings are embedded as `List Char` (`Str`); the Python string
primitives the code uses (`str.replace`, `str.split`, `str.strip`,
`str.isspace`) are defined below with their CPython semantics.  The key
grammar (`sanitize_key_segment`, `build_key`, `parse_key`) is translated
from `src/enveloper/store.py`; the keychain store protocol from
`src/enveloper/stores/keychain.py`, with the `keyring` backend modelled as
an association list from username to stored string and the `json`
collaborator modelled by an executable JSON encoder/parser below.
-/

namespace Enveloper

/-- Python strings, embedded as lists of unicode scalar values. -/
abbrev Str := List Char

/-- The characters for which Python's `str.isspace` is true (the set used by
`str.strip()` with no argument). -/
def pyWhitespaceChars : Str :=
  ['\t', '\n', '\x0b', '\x0c', '\r', '\x1c', '\x1d', '\x1e', '\x1f', ' ',
   '\x85', '\xa0', ' ',
   ' ', ' ', ' ', ' ', ' ', ' ', ' ',
   ' ', ' ', ' ', ' ',
   ' ', ' ', ' ', ' ', '　']

/-- Python `str.isspace` on a single character. -/
def pyIsSpace (c : Char) : Bool := pyWhitespaceChars.contains c

/-- Strip characters satisfying `p` from both ends of a string
(the common core of Python `str.strip()` and `str.strip(chars)`). -/
def pyStripP (p : Char → Bool) (s : Str) : Str :=
  ((s.dropWhile p).reverse.dropWhile p).reverse

/-- Python `str.strip()`: strip whitespace from both ends. -/
def pyStripWs (s : Str) : Str := pyStripP pyIsSpace s

/-- Python `str.strip(chars)`: strip every character that occurs in `cs`
(treated as a set) from both ends. -/
def pyStripChars (cs : Str) (s : Str) : Str :=
  pyStripP (fun c => cs.contains c) s

/-- Python `str.replace(sep, rep)`, fuel-indexed so that the recursion is
structural and the kernel can evaluate it; the fuel never runs out when it
is at least the length of the string. -/
def replaceAllF (sep rep : Str) : Nat → Str → Str
  | _, [] => []
  | 0, s => s
  | fuel + 1, c :: rest =>
    if sep ≠ [] ∧ sep.isPrefixOf (c :: rest) then
      rep ++ replaceAllF sep rep fuel (rest.drop (sep.length - 1))
    else
      c :: replaceAllF sep rep fuel rest

/-- Python `str.replace(sep, rep)`: replace non-overlapping occurrences of
`sep`, scanning left to right.  The code only ever calls it with a
non-empty `sep` (separators and the literal backslash / dot). -/
def replaceAll (sep rep s : Str) : Str := replaceAllF sep rep s.length s

/-- Python `str.split(sep)` for a non-empty separator, fuel-indexed like
`replaceAllF`. -/
def splitSeqF (sep : Str) : Nat → Str → List Str
  | _, [] => [[]]
  | 0, s => [s]
  | fuel + 1, c :: rest =>
    if sep ≠ [] ∧ sep.isPrefixOf (c :: rest) then
      [] :: splitSeqF sep fuel (rest.drop (sep.length - 1))
    else
      match splitSeqF sep fuel rest with
      | [] => [[c]]
      | t :: ts => (c :: t) :: ts

/-- Python `str.split(sep)` for a non-empty separator: split on every
non-overlapping occurrence of `sep`, scanning left to right.
`splitSeq sep [] = [[]]`, matching `"".split(sep) == [""]`. -/
def splitSeq (sep s : Str) : List Str := splitSeqF sep s.length s

/-- Split at the first occurrence of the character `c`: returns the part
before it and, when `c` occurs, the part after it. -/
def splitFirst (c : Char) (s : Str) : Str × Option Str :=
  match s with
  | [] => ([], none)
  | a :: rest =>
    if a = c then ([], some rest)
    else
      let p := splitFirst c rest
      (a :: p.1, p.2)

/-- Per-backend configuration of the key grammar
(class attributes of the `SecretStore` subclasses).
`pfx` is the class attribute `prefix` (a Lean keyword, hence renamed). -/
structure StoreDescriptor where
  key_separator : Str
  version_separator : Str
  pfx : Str
  default_namespace : Str
deriving DecidableEq

/-- `SecretStore.sanitize_key_segment` (store.py lines 139-163): blank
values become `default_namespace`; the key separator and the literal
backslash are replaced by an underscore; the result is stripped of
surrounding whitespace, falling back to `default_namespace` when empty. -/
def sanitize_key_segment (d : StoreDescriptor) (value : Str) : Str :=
  if value = [] ∨ pyStripWs value = [] then d.default_namespace
  else
    let s1 := replaceAll d.key_separator ['_'] value
    let s2 := replaceAll ['\\'] ['_'] s1
    let s3 := pyStripWs s2
    if s3 = [] then d.default_namespace else s3

/-- `SecretStore.build_key` (store.py lines 165-187):
`prefix sep domain sep project sep version sep name`, with the three free
segments sanitized and the dots of the version replaced by the store's
version separator. -/
def build_key (d : StoreDescriptor) (name project domain version : Str) : Str :=
  let name_safe := sanitize_key_segment d name
  let project_safe := sanitize_key_segment d project
  let domain_safe := sanitize_key_segment d domain
  let version_safe := replaceAll ['.'] d.version_separator version
  d.pfx ++ d.key_separator ++ domain_safe ++ d.key_separator ++
    project_safe ++ d.key_separator ++ version_safe ++ d.key_separator ++ name_safe

/-- Result of `SecretStore.parse_key`.  `pfx` is the `prefix` entry of the
returned dict (renamed: Lean keyword). -/
structure ParsedKey where
  pfx : Str
  project : Str
  domain : Str
  version : Str
  name : Str
deriving DecidableEq

/-- `SecretStore.parse_key` (store.py lines 189-225): strip separator
characters from both ends (`key.strip(sep)`), reject the empty string,
split on the separator, reject fewer than five segments, read the last
five segments as prefix/domain/project/version/name and turn underscores
in the version back into dots.  (The `try/except IndexError` of the source
is dead code once `len(parts) >= 5`.) -/
def parse_key (d : StoreDescriptor) (key : Str) : Option ParsedKey :=
  let sep := d.key_separator
  let stripped := if sep = [] then key else pyStripChars sep key
  if stripped = [] then none
  else
    let parts := splitSeq sep stripped
    if parts.length < 5 then none
    else
      let r := parts.reverse
      some { pfx := r.getD 4 []
             project := r.getD 2 []
             domain := r.getD 3 []
             version := replaceAll ['_'] ['.'] (r.getD 1 [])
             name := r.getD 0 [] }


/-- C5's reading of `parse_key`, modelled from the claim's words: strip
ONE leading and ONE trailing occurrence of the separator, split on it,
fail under five segments, take the last five segments as
`[prefix, domain, project, version, name]` and reverse the
version-separator substitution (replace the descriptor's
`version_separator` back to dots) in the version. -/
def parse_key_claimC5 (d : StoreDescriptor) (key : Str) : Option ParsedKey :=
  let sep := d.key_separator
  let k1 := if sep ≠ [] ∧ sep.isPrefixOf key then key.drop sep.length else key
  let k2 := if sep ≠ [] ∧ sep.isSuffixOf k1 then k1.take (k1.length - sep.length) else k1
  match (splitSeq sep k2).reverse with
  | n :: v :: pj :: dm :: pf :: _ =>
    some { pfx := pf, project := pj, domain := dm,
           version := replaceAll d.version_separator ['.'] v, name := n }
  | _ => none

/-- The amended description of `parse_key`: Python's `key.strip(sep)`
removes ALL leading and trailing characters belonging to the separator
(treated as a character set, not just one occurrence); then split on the
separator, fail under five segments, take the last five segments, and
replace underscores (the literal `'_'`, regardless of the descriptor's
version separator) by dots in the version segment. -/
def parse_key_amendedC5 (d : StoreDescriptor) (key : Str) : Option ParsedKey :=
  match (splitSeq d.key_separator (pyStripChars d.key_separator key)).reverse with
  | n :: v :: pj :: dm :: pf :: _ =>
    some { pfx := pf, project := pj, domain := dm,
           version := replaceAll ['_'] ['.'] v, name := n }
  | _ => none

/-! ## The concrete store descriptors of the repository -/

/-- AwsSsmStore: separator `/`, version separator `.`, prefix `envr`. -/
def awsSsmDescriptor : StoreDescriptor :=
  { key_separator := "/".toList, version_separator := ".".toList,
    pfx := "envr".toList, default_namespace := "_default_".toList }

/-- KeychainStore: separator `/`, version separator `_`, prefix `envr`. -/
def keychainDescriptor : StoreDescriptor :=
  { key_separator := "/".toList, version_separator := "_".toList,
    pfx := "envr".toList, default_namespace := "_default_".toList }

/-- VaultStore: separator `/`, version separator `.`, prefix `envr`. -/
def vaultDescriptor : StoreDescriptor :=
  { key_separator := "/".toList, version_separator := ".".toList,
    pfx := "envr".toList, default_namespace := "_default_".toList }

/-- FileStore: separator `/`, version separator `.`, prefix `envr`. -/
def fileStoreDescriptor : StoreDescriptor :=
  { key_separator := "/".toList, version_separator := ".".toList,
    pfx := "envr".toList, default_namespace := "_default_".toList }

/-- GcpSmStore: separator `--`, version separator `.`, prefix `envr`. -/
def gcpSmDescriptor : StoreDescriptor :=
  { key_separator := "--".toList, version_separator := ".".toList,
    pfx := "envr".toList, default_namespace := "_default_".toList }

/-- AzureKvStore: separator `--`, version separator `.`, prefix `envr`,
default namespace `default` (Azure disallows underscores in names). -/
def azureKvDescriptor : StoreDescriptor :=
  { key_separator := "--".toList, version_separator := ".".toList,
    pfx := "envr".toList, default_namespace := "default".toList }

/-- AliyunSmStore: separator `--`, version separator `.`, prefix `envr`. -/
def aliyunSmDescriptor : StoreDescriptor :=
  { key_separator := "--".toList, version_separator := ".".toList,
    pfx := "envr".toList, default_namespace := "_default_".toList }

/-- GitHubStore: separator `__`, version separator `_`, prefix `ENVR`. -/
def gitHubDescriptor : StoreDescriptor :=
  { key_separator := "__".toList, version_separator := "_".toList,
    pfx := "ENVR".toList, default_namespace := "_default_".toList }

/-- All store descriptors declared in the repository. -/
def allDescriptors : List StoreDescriptor :=
  [awsSsmDescriptor, keychainDescriptor, vaultDescriptor, fileStoreDescriptor,
   gcpSmDescriptor, azureKvDescriptor, aliyunSmDescriptor, gitHubDescriptor]

/-- The descriptors whose key separator contains no underscore
(every repository descriptor except GitHub's `__`). -/
def nonUnderscoreDescriptors : List StoreDescriptor :=
  [awsSsmDescriptor, keychainDescriptor, vaultDescriptor, fileStoreDescriptor,
   gcpSmDescriptor, azureKvDescriptor, aliyunSmDescriptor]

/-! ## Semver validation (`is_valid_semver`, store.py lines 23-32)

The source compiles the strict-semver regex and tests
`bool(_SEMVER_PATTERN.match(version))`.  The pattern is anchored
(`^ ... $`); Python's `$` also matches just before one trailing newline,
so the accepted language is the strict grammar optionally followed by a
single `'\n'`.  `\d` in Python matches any Unicode decimal digit; the
embedding uses ASCII digits, so theorems about it restrict version
strings to ASCII. -/

/-- `[0-9a-zA-Z-]`, the character class of pre-release/build identifiers. -/
def isIdentChar (c : Char) : Bool := c.isAlphanum || c = '-'

/-- `0|[1-9]\d*`: a numeric identifier without leading zeroes. -/
def isNumericNoLeadZero (s : Str) : Bool :=
  s ≠ [] && s.all Char.isDigit && (s.head? ≠ some '0' || s.length = 1)

/-- One dot-separated pre-release identifier:
`0|[1-9]\d*|\d*[a-zA-Z-][0-9a-zA-Z-]*`. -/
def isPreReleaseIdent (s : Str) : Bool :=
  s ≠ [] && s.all isIdentChar &&
    (if s.all Char.isDigit then s.head? ≠ some '0' || s.length = 1 else true)

/-- The `major.minor.patch` core: exactly three numeric identifiers. -/
def isSemverCore (s : Str) : Bool :=
  match splitSeq ['.'] s with
  | [a, b, c] => isNumericNoLeadZero a && isNumericNoLeadZero b && isNumericNoLeadZero c
  | _ => false

/-- Build metadata: `[0-9a-zA-Z-]+(\.[0-9a-zA-Z-]+)*`. -/
def isBuildMeta (s : Str) : Bool :=
  (splitSeq ['.'] s).all (fun p => p ≠ [] && p.all isIdentChar)

/-- Pre-release: one or more dot-separated pre-release identifiers. -/
def isPreRelease (s : Str) : Bool :=
  (splitSeq ['.'] s).all isPreReleaseIdent

/-- The strict semver grammar of the regex (without the trailing-newline
tolerance of `$`).  The core contains only digits and dots and the
pre-release/build identifiers contain no `+`, so the first `-` of the
part before the first `+` separates core from pre-release, and the first
`+` separates off the build metadata. -/
def semverGrammar (s : Str) : Bool :=
  let pb := splitFirst '+' s
  let cp := splitFirst '-' pb.1
  isSemverCore cp.1 &&
    (match cp.2 with | none => true | some p => isPreRelease p) &&
    (match pb.2 with | none => true | some b => isBuildMeta b)

/-- `is_valid_semver` (store.py lines 30-32):
`bool(_SEMVER_PATTERN.match(version))`.  Because the pattern ends in `$`,
a single trailing newline is also accepted. -/
def is_valid_semver (s : Str) : Bool :=
  semverGrammar s || (s.getLast? = some '\n' && semverGrammar s.dropLast)

/-! ## Store constructors (version validation before any backend call)

Each adapter's `__init__` assigns its fields and then validates the
version with `is_valid_semver`, raising `ValueError` (the spec's
`InvalidVersion`) when it fails.  None of the constructors touches the
network: `AwsSsmStore` creates its client lazily (`self._client = None`),
`GitHubStore` only checks that the `gh` binary exists (modelled by the
`ghAvailable` flag) after the version check, and `KeychainStore` makes no
system call at all.  The constructors are therefore modelled as pure
functions returning `Except`. -/

inductive StoreInitError where
  | invalidVersion
  | missingGhCli
deriving DecidableEq

/-- Fields of `AwsSsmStore` assigned by `__init__` (aws_ssm.py lines
58-81).  `client` is omitted: it is `None` until first use. -/
structure AwsSsmStore where
  pfx_path : Str
  profile : Option Str
  region : Option Str
  param_type : Str
  version : Str
  domain : Str
  project : Str
deriving DecidableEq

/-- `AwsSsmStore.__init__`: normalize the prefix to end in `/`, record the
fields, then validate the version; no AWS client is created. -/
def awsSsmInit (pfx0 : Str) (profile region : Option Str) (secure : Bool)
    (version domain project : Str) : Except StoreInitError AwsSsmStore :=
  let pfx1 := if pfx0.getLast? = some '/' then pfx0 else pfx0 ++ ['/']
  let st : AwsSsmStore :=
    { pfx_path := pfx1, profile := profile, region := region,
      param_type := if secure then "SecureString".toList else "String".toList,
      version := version, domain := domain, project := project }
  if is_valid_semver version then Except.ok st else Except.error StoreInitError.invalidVersion

/-- Fields of `KeychainStore` assigned by `__init__` (keychain.py lines
50-61).  `service` is `envr:{project}`; `domain` is optional
(`None` and `""` both behave as absent and are modelled as `[]`). -/
structure KeychainStoreState where
  service : Str
  domain : Str
  version : Str
deriving DecidableEq

/-- `KeychainStore.__init__`: record service/domain/version, then validate
the version. -/
def keychainInit (project : Str) (domain : Str) (version : Str) :
    Except StoreInitError KeychainStoreState :=
  let st : KeychainStoreState :=
    { service := "envr:".toList ++ project, domain := domain, version := version }
  if is_valid_semver version then Except.ok st else Except.error StoreInitError.invalidVersion

/-- Fields of `GitHubStore` assigned by `__init__` (github.py lines 50-68). -/
structure GitHubStoreState where
  pfx_arg : Str
  repo : Option Str
  version : Str
  domain : Str
  project : Str
deriving DecidableEq

/-- `GitHubStore.__init__`: record the fields, validate the version
(raising `InvalidVersion`), and only then check for the `gh` CLI
(raising `RuntimeError` when missing). -/
def gitHubInit (ghAvailable : Bool) (pfx0 : Str) (repo : Option Str)
    (version domain project : Str) : Except StoreInitError GitHubStoreState :=
  let st : GitHubStoreState :=
    { pfx_arg := pfx0, repo := repo, version := version, domain := domain, project := project }
  if ¬ is_valid_semver version then Except.error StoreInitError.invalidVersion
  else if ¬ ghAvailable then Except.error StoreInitError.missingGhCli
  else Except.ok st

/-! ## The `json` collaborator

The keychain store persists its manifest and domain registry as JSON
arrays of strings via `json.dumps` / `json.loads`.  Both are modelled
executably: `pyJsonDumps` follows CPython's default encoder
(`ensure_ascii=True`, separators `", "`), `parseJson` follows CPython's
strict decoder grammar.  The only intentional divergence: `json.loads`
accepts lone surrogate escapes (producing lone-surrogate code units that
`Char` cannot represent); the parser rejects them.  No value written by
the module contains them. -/

inductive Json where
  | jnull
  | jbool (b : Bool)
  | jnum (lexeme : Str)
  | jstr (s : Str)
  | jarr (elems : List Json)
  | jobj (members : List (Str × Json))

/-- JSON whitespace (`json.decoder.WHITESPACE`): space, tab, newline, CR. -/
def jsonWsChar (c : Char) : Bool := c = ' ' || c = '\t' || c = '\n' || c = '\r'

def skipWs (s : Str) : Str := s.dropWhile jsonWsChar

def hexVal (c : Char) : Option Nat :=
  if '0' ≤ c ∧ c ≤ '9' then some (c.toNat - '0'.toNat)
  else if 'a' ≤ c ∧ c ≤ 'f' then some (c.toNat - 'a'.toNat + 10)
  else if 'A' ≤ c ∧ c ≤ 'F' then some (c.toNat - 'A'.toNat + 10)
  else none

def parseHex4 (s : Str) : Option (Nat × Str) :=
  match s with
  | a :: b :: c :: d :: rest =>
    match hexVal a, hexVal b, hexVal c, hexVal d with
    | some x, some y, some z, some w => some (((x * 16 + y) * 16 + z) * 16 + w, rest)
    | _, _, _, _ => none
  | _ => none

/-- Body of a JSON string, positioned after the opening quote: literal
characters up to the closing quote, with the standard escapes and
`\uXXXX` (surrogate pairs recombined).  Unescaped control characters are
rejected (strict mode). -/
def parseStringBody : Nat → Str → Option (Str × Str)
  | 0, _ => none
  | _ + 1, [] => none
  | fuel + 1, c :: rest =>
    if c = '"' then some ([], rest)
    else if c = '\\' then
      match rest with
      | [] => none
      | e :: rest2 =>
        let dec : Option (Char × Str) :=
          if e = '"' then some ('"', rest2)
          else if e = '\\' then some ('\\', rest2)
          else if e = '/' then some ('/', rest2)
          else if e = 'b' then some ('\x08', rest2)
          else if e = 'f' then some ('\x0c', rest2)
          else if e = 'n' then some ('\n', rest2)
          else if e = 'r' then some ('\r', rest2)
          else if e = 't' then some ('\t', rest2)
          else if e = 'u' then
            match parseHex4 rest2 with
            | none => none
            | some (n, rest3) =>
              if 0xd800 ≤ n ∧ n ≤ 0xdbff then
                match rest3 with
                | '\\' :: 'u' :: rest4 =>
                  match parseHex4 rest4 with
                  | some (m, rest5) =>
                    if 0xdc00 ≤ m ∧ m ≤ 0xdfff then
                      some (Char.ofNat (0x10000 + (n - 0xd800) * 0x400 + (m - 0xdc00)), rest5)
                    else none
                  | none => none
                | _ => none
              else if 0xdc00 ≤ n ∧ n ≤ 0xdfff then none
              else some (Char.ofNat n, rest3)
          else none
        match dec with
        | none => none
        | some (ch, rest3) =>
          match parseStringBody fuel rest3 with
          | some (tail, r) => some (ch :: tail, r)
          | none => none
    else if c.toNat < 0x20 then none
    else
      match parseStringBody fuel rest with
      | some (tail, r) => some (c :: tail, r)
      | none => none

/-- JSON number, as matched by `json.scanner.NUMBER_RE`:
`-?(0|[1-9]\d*)(\.\d+)?([eE][+-]?\d+)?`, longest match; returns the
lexeme and the remainder. -/
def parseNumber (s : Str) : Option (Str × Str) :=
  let p0 : Str × Str := match s with | '-' :: t => (['-'], t) | _ => ([], s)
  match p0.2 with
  | [] => none
  | c :: rest =>
    if c = '0' ∨ c.isDigit then
      let ip : Str × Str :=
        if c = '0' then (['0'], rest)
        else (c :: rest.takeWhile Char.isDigit, rest.dropWhile Char.isDigit)
      let fr : Str × Str :=
        match ip.2 with
        | '.' :: t =>
          if (t.takeWhile Char.isDigit) ≠ [] then
            ('.' :: t.takeWhile Char.isDigit, t.dropWhile Char.isDigit)
          else ([], ip.2)
        | _ => ([], ip.2)
      let ex : Str × Str :=
        match fr.2 with
        | e :: t =>
          if e = 'e' ∨ e = 'E' then
            let p1 : Str × Str := match t with
              | '+' :: t2 => (['+'], t2)
              | '-' :: t2 => (['-'], t2)
              | _ => ([], t)
            if (p1.2.takeWhile Char.isDigit) ≠ [] then
              (e :: p1.1 ++ p1.2.takeWhile Char.isDigit, p1.2.dropWhile Char.isDigit)
            else ([], fr.2)
          else ([], fr.2)
        | [] => ([], fr.2)
      if c.isDigit then some (p0.1 ++ ip.1 ++ fr.1 ++ ex.1, ex.2) else none
    else none

mutual

/-- One JSON value (CPython `json.scanner.py_make_scanner` order: string,
object, array, `null`, `true`, `false`, number, `NaN`, `Infinity`,
`-Infinity`). -/
def parseValue : Nat → Str → Option (Json × Str)
  | 0, _ => none
  | fuel + 1, s =>
    match s with
    | [] => none
    | c :: rest =>
      if c = '"' then
        match parseStringBody (rest.length + 1) rest with
        | some (str, r) => some (Json.jstr str, r)
        | none => none
      else if c = '{' then
        match skipWs rest with
        | '}' :: r2 => some (Json.jobj [], r2)
        | r1 =>
          match parseMembers fuel r1 with
          | some (ms, r) => some (Json.jobj ms, r)
          | none => none
      else if c = '[' then
        match skipWs rest with
        | ']' :: r2 => some (Json.jarr [], r2)
        | r1 =>
          match parseElems fuel r1 with
          | some (vs, r) => some (Json.jarr vs, r)
          | none => none
      else if "null".toList.isPrefixOf s then some (Json.jnull, s.drop 4)
      else if "true".toList.isPrefixOf s then some (Json.jbool true, s.drop 4)
      else if "false".toList.isPrefixOf s then some (Json.jbool false, s.drop 5)
      else if "NaN".toList.isPrefixOf s then some (Json.jnum "NaN".toList, s.drop 3)
      else if "Infinity".toList.isPrefixOf s then some (Json.jnum "Infinity".toList, s.drop 8)
      else if "-Infinity".toList.isPrefixOf s then some (Json.jnum "-Infinity".toList, s.drop 9)
      else
        match parseNumber s with
        | some (lex, r) => some (Json.jnum lex, r)
        | none => none

/-- Array elements, positioned at the first element. -/
def parseElems : Nat → Str → Option (List Json × Str)
  | 0, _ => none
  | fuel + 1, s =>
    match parseValue fuel s with
    | none => none
    | some (v, rest) =>
      match skipWs rest with
      | ',' :: r2 =>
        match parseElems fuel (skipWs r2) with
        | some (vs, r) => some (v :: vs, r)
        | none => none
      | ']' :: r2 => some ([v], r2)
      | _ => none

/-- Object members, positioned at the first key. -/
def parseMembers : Nat → Str → Option (List (Str × Json) × Str)
  | 0, _ => none
  | fuel + 1, s =>
    match s with
    | '"' :: rest =>
      match parseStringBody (rest.length + 1) rest with
      | some (k, r1) =>
        match skipWs r1 with
        | ':' :: r2 =>
          match parseValue fuel (skipWs r2) with
          | some (v, r3) =>
            match skipWs r3 with
            | ',' :: r4 =>
              match parseMembers fuel (skipWs r4) with
              | some (ms, r) => some ((k, v) :: ms, r)
              | none => none
            | '}' :: r4 => some ([(k, v)], r4)
            | _ => none
          | none => none
        | _ => none
      | none => none
    | _ => none

end

/-- `json.loads`: skip leading whitespace, parse one value, require only
whitespace after it. -/
def parseJson (s : Str) : Option Json :=
  match parseValue (s.length + 1) (skipWs s) with
  | some (v, rest) => if skipWs rest = [] then some v else none
  | none => none

def jsonStrings : List Json → Option (List Str)
  | [] => some []
  | Json.jstr s :: rest => (jsonStrings rest).map (s :: ·)
  | _ => none

/-- Extract a JSON array of strings. -/
def jsonToStrList : Json → Option (List Str)
  | Json.jarr xs => jsonStrings xs
  | _ => none

/-! ### `json.dumps` for lists of strings (default options) -/

def hexDigitChar (n : Nat) : Char :=
  if n < 10 then Char.ofNat ('0'.toNat + n) else Char.ofNat ('a'.toNat + n - 10)

def hex4 (n : Nat) : Str :=
  [hexDigitChar (n / 4096 % 16), hexDigitChar (n / 256 % 16),
   hexDigitChar (n / 16 % 16), hexDigitChar (n % 16)]

/-- Escape one character as CPython's `py_encode_basestring_ascii` does:
the named escapes, printable ASCII verbatim, `\uXXXX` (lowercase hex) for
the rest, surrogate pairs for astral characters. -/
def escChar (c : Char) : Str :=
  if c = '"' then ['\\', '"']
  else if c = '\\' then ['\\', '\\']
  else if c = '\n' then ['\\', 'n']
  else if c = '\r' then ['\\', 'r']
  else if c = '\t' then ['\\', 't']
  else if c = '\x08' then ['\\', 'b']
  else if c = '\x0c' then ['\\', 'f']
  else if 0x20 ≤ c.toNat ∧ c.toNat ≤ 0x7e then [c]
  else if c.toNat < 0x10000 then '\\' :: 'u' :: hex4 c.toNat
  else
    let u := c.toNat - 0x10000
    ('\\' :: 'u' :: hex4 (0xd800 + u / 0x400)) ++ ('\\' :: 'u' :: hex4 (0xdc00 + u % 0x400))

def escBody (s : Str) : Str := s.foldr (fun c acc => escChar c ++ acc) []

def pyJsonDumpStr (s : Str) : Str := '"' :: escBody s ++ ['"']

def pyJsonCommaSep : List Str → Str
  | [] => []
  | [s] => pyJsonDumpStr s
  | s :: rest => pyJsonDumpStr s ++ ',' :: ' ' :: pyJsonCommaSep rest

/-- `json.dumps` of a list of strings with default separators:
`["a", "b"]`. -/
def pyJsonDumps (l : List Str) : Str := '[' :: pyJsonCommaSep l ++ [']']

/-- Python `sorted` on strings: ascending code-point-lexicographic order
(the `≤` of `List Char`). -/
def pySorted (l : List Str) : List Str := List.insertionSort (· ≤ ·) l

/-! ## The keychain store (`stores/keychain.py`)

The `keyring` backend maps `(service, username)` to a stored string.  All
operations of one `KeychainStore` use the single service
`envr:{project}`, so the state is modelled as an association list from
username to value.  `keyring.get_password` on an absent entry returns
`None`; `keyring.delete_password` on an absent entry raises
`PasswordDeleteError`, which every caller swallows, so deletion is total.
`self._domain` is `None` or a string; `None` and `""` behave identically
(Python truthiness) and are modelled as `[]`. -/

abbrev KV := List (Str × Str)

def kvGet (st : KV) (k : Str) : Option Str :=
  (st.find? (fun p => p.1 == k)).map Prod.snd

def kvErase (st : KV) (k : Str) : KV := st.filter (fun p => !(p.1 == k))

def kvSet (st : KV) (k v : Str) : KV := (k, v) :: kvErase st k

/-- The per-instance configuration relevant to the protocol:
`self._domain` and `self._version`. -/
structure KcCfg where
  dom : Str
  ver : Str
deriving DecidableEq

/-- `_MANIFEST_KEY`. -/
def manifestKeyTail : Str := "__keys__".toList

/-- The username of the top-level domain registry. -/
def domainsUsername : Str := "__domains__".toList

/-- `KeychainStore._username`: `{domain}/{version}/{key}`, or
`{version}/{key}` when the instance has no domain. -/
def kcUsername (c : KcCfg) (k : Str) : Str :=
  if c.dom = [] then c.ver ++ '/' :: k else c.dom ++ '/' :: c.ver ++ '/' :: k

/-- `KeychainStore._manifest_username` (every call site passes no
argument): `{domain or "_global"}/__keys__`. -/
def kcManifestUsername (c : KcCfg) : Str :=
  (if c.dom = [] then "_global".toList else c.dom) ++ '/' :: manifestKeyTail

/-- Decode a stored JSON string into a list of names: `[]` on a decoding
error (`json.JSONDecodeError` is caught).  On valid JSON that is not an
array of strings the Python code returns the decoded object unchanged
(it is typed `list[str]` but not checked); the module never writes such
values and every caller would fail on them, so the model returns `[]`. -/
def decodeStrListRaw (raw : Str) : List Str :=
  match parseJson raw with
  | none => []
  | some j => (jsonToStrList j).getD []

/-- `KeychainStore._read_manifest` (no argument at every call site). -/
def kcReadManifest (c : KcCfg) (st : KV) : List Str :=
  match kvGet st (kcManifestUsername c) with
  | none => []
  | some raw => decodeStrListRaw raw

/-- `KeychainStore._write_manifest`: store `json.dumps(sorted(set(keys)))`. -/
def kcWriteManifest (c : KcCfg) (st : KV) (keys : List Str) : KV :=
  kvSet st (kcManifestUsername c) (pyJsonDumps (pySorted keys.dedup))

/-- `KeychainStore.get`. -/
def kcGet (c : KcCfg) (st : KV) (k : Str) : Option Str := kvGet st (kcUsername c k)

/-- `KeychainStore.set`: write the secret, then append the key to the
manifest when missing. -/
def kcSet (c : KcCfg) (st : KV) (k v : Str) : KV :=
  let st1 := kvSet st (kcUsername c k) v
  let m := kcReadManifest c st1
  if k ∈ m then st1 else kcWriteManifest c st1 (m ++ [k])

/-- `KeychainStore.list_domains`. -/
def kcListDomains (st : KV) : List Str :=
  match kvGet st domainsUsername with
  | none => []
  | some raw => decodeStrListRaw raw

/-- `KeychainStore.register_domain`: append when missing and store
`json.dumps(sorted(domains))`. -/
def kcRegisterDomain (st : KV) (dom : Str) : KV :=
  let ds := kcListDomains st
  if dom ∈ ds then st
  else kvSet st domainsUsername (pyJsonDumps (pySorted (ds ++ [dom])))

/-- `KeychainStore.unregister_domain`: remove the domain; delete the
registry entry entirely when it becomes empty. -/
def kcUnregisterDomain (st : KV) (dom : Str) : KV :=
  let ds := kcListDomains st
  if dom ∉ ds then st
  else
    let ds2 := ds.filter (fun d => !(d == dom))
    if ds2 ≠ [] then kvSet st domainsUsername (pyJsonDumps (pySorted ds2))
    else kvErase st domainsUsername

/-- `KeychainStore.delete`: delete the secret (errors swallowed); if the
key is listed, remove it from the manifest and write the manifest back
(also when it became empty), then unregister the domain when the manifest
became empty. -/
def kcDelete (c : KcCfg) (st : KV) (k : Str) : KV :=
  let st1 := kvErase st (kcUsername c k)
  let m := kcReadManifest c st1
  if k ∈ m then
    let m2 := m.erase k
    let st2 := kcWriteManifest c st1 m2
    if m2 = [] ∧ c.dom ≠ [] then kcUnregisterDomain st2 c.dom else st2
  else st1

/-- `KeychainStore.list_keys`: the manifest contents. -/
def kcListKeys (c : KcCfg) (st : KV) : List Str := kcReadManifest c st

/-- `KeychainStore.set_with_domain_tracking`: `set`, then register the
instance's domain when present. -/
def kcSetWithDomainTracking (c : KcCfg) (st : KV) (k v : Str) : KV :=
  let st1 := kcSet c st k v
  if c.dom ≠ [] then kcRegisterDomain st1 c.dom else st1

/-- One mutating operation of the keychain store. -/
inductive KcOp where
  | set (k v : Str)
  | setTracked (k v : Str)
  | del (k : Str)
deriving DecidableEq

def kcStep (c : KcCfg) (st : KV) : KcOp → KV
  | KcOp.set k v => kcSet c st k v
  | KcOp.setTracked k v => kcSetWithDomainTracking c st k v
  | KcOp.del k => kcDelete c st k

/-- Run a sequence of operations from the empty backend. -/
def kcRun (c : KcCfg) (ops : List KcOp) : KV := ops.foldl (kcStep c) []

/-- Is the operation a plain `set` (no domain tracking)? -/
def KcOp.isPlainSet : KcOp → Bool
  | KcOp.set _ _ => true
  | _ => false

/-- The stored manifest of `c` in `st` decodes to exactly `m` (an absent
entry decodes to `[]`); when present it is the JSON dump of `m`, and `m`
is strictly sorted (hence duplicate-free). -/
def ManifestRep (c : KcCfg) (st : KV) (m : List Str) : Prop :=
  (kvGet st (kcManifestUsername c) = none ∧ m = []) ∨
  (kvGet st (kcManifestUsername c) = some (pyJsonDumps m) ∧ m.Sorted (· < ·))

/-- The stored domain registry decodes to exactly `ds`; the entry is
deleted rather than stored empty, so a present entry is non-empty. -/
def DomainsRep (st : KV) (ds : List Str) : Prop :=
  (kvGet st domainsUsername = none ∧ ds = []) ∨
  (kvGet st domainsUsername = some (pyJsonDumps ds) ∧ ds.Sorted (· < ·) ∧ ds ≠ [])

/-- Well-formed manifest and registry. -/
def KcInvB (c : KcCfg) (st : KV) : Prop :=
  ∃ m ds, ManifestRep c st m ∧ DomainsRep st ds

/-- Well-formed manifest and registry, and the C2 invariant: the
instance's domain is registered iff its manifest is non-empty. -/
def KcInv (c : KcCfg) (st : KV) : Prop :=
  ∃ m ds, ManifestRep c st m ∧ DomainsRep st ds ∧ (c.dom ∈ ds ↔ m ≠ [])

/-- The version string never contains a slash and is not the literal
`_global` (both hold for every valid semver, which the constructors
enforce). -/
def VerOk (c : KcCfg) : Prop := '/' ∉ c.ver ∧ c.ver ≠ "_global".toList

/-- Every character of `x` avoids every character of `sep` (so the
separator cannot occur in `x`, not even partially). -/
def SepFree (sep x : Str) : Prop := ∀ ch ∈ x, ch ∉ sep


/-- The conditions under which a free segment passes through
`sanitize_key_segment` unchanged: non-empty, no character of the key
separator, no backslash, and no leading or trailing whitespace. -/
def SegGood (d : StoreDescriptor) (x : Str) : Prop :=
  x ≠ [] ∧ SepFree d.key_separator x ∧ '\\' ∉ x ∧
    x.head?.all (fun ch => !(pyIsSpace ch)) = true ∧
    x.getLast?.all (fun ch => !(pyIsSpace ch)) = true

instance (sep x : Str) : Decidable (SepFree sep x) := by
  unfold SepFree; infer_instance

instance (d : StoreDescriptor) (x : Str) : Decidable (SegGood d x) := by
  unfold SegGood; infer_instance

/-! ## Helper lemmas: replace and split

The fuel-indexed definitions are first shown fuel-irrelevant, giving the
natural one-step unfolding equations; everything below works with those
equations only. -/

theorem replaceAllF_irrel (sep rep : Str) :
    ∀ f g s, s.length ≤ f → s.length ≤ g →
      replaceAllF sep rep f s = replaceAllF sep rep g s := by
  intro f
  induction f with
  | zero =>
    intro g s hf _
    have : s = [] := List.eq_nil_of_length_eq_zero (Nat.le_zero.mp hf)
    subst this
    cases g <;> rfl
  | succ f ih =>
    intro g s hf hg
    cases s with
    | nil => cases g <;> rfl
    | cons c rest =>
      cases g with
      | zero => simp at hg
      | succ g =>
        simp only [replaceAllF]
        simp only [List.length_cons] at hf hg
        rw [ih g (rest.drop (sep.length - 1))
              (by simp only [List.length_drop]; omega)
              (by simp only [List.length_drop]; omega),
            ih g rest (by omega) (by omega)]

theorem replaceAll_nil (sep rep : Str) : replaceAll sep rep [] = [] := rfl

theorem replaceAll_cons (sep rep : Str) (c : Char) (rest : Str) :
    replaceAll sep rep (c :: rest) =
      if sep ≠ [] ∧ sep.isPrefixOf (c :: rest) then
        rep ++ replaceAll sep rep (rest.drop (sep.length - 1))
      else c :: replaceAll sep rep rest := by
  show replaceAllF sep rep (rest.length + 1) (c :: rest) = _
  simp only [replaceAllF]
  rw [replaceAllF_irrel sep rep rest.length (rest.drop (sep.length - 1)).length
        (rest.drop (sep.length - 1)) (by simp only [List.length_drop]; omega) (le_refl _)]
  rfl

theorem splitSeqF_irrel (sep : Str) :
    ∀ f g s, s.length ≤ f → s.length ≤ g →
      splitSeqF sep f s = splitSeqF sep g s := by
  intro f
  induction f with
  | zero =>
    intro g s hf _
    have : s = [] := List.eq_nil_of_length_eq_zero (Nat.le_zero.mp hf)
    subst this
    cases g <;> rfl
  | succ f ih =>
    intro g s hf hg
    cases s with
    | nil => cases g <;> rfl
    | cons c rest =>
      cases g with
      | zero => simp at hg
      | succ g =>
        simp only [splitSeqF]
        simp only [List.length_cons] at hf hg
        rw [ih g (rest.drop (sep.length - 1))
              (by simp only [List.length_drop]; omega)
              (by simp only [List.length_drop]; omega),
            ih g rest (by omega) (by omega)]

theorem splitSeq_nil (sep : Str) : splitSeq sep [] = [[]] := rfl

theorem splitSeq_cons (sep : Str) (c : Char) (rest : Str) :
    splitSeq sep (c :: rest) =
      if sep ≠ [] ∧ sep.isPrefixOf (c :: rest) then
        [] :: splitSeq sep (rest.drop (sep.length - 1))
      else
        match splitSeq sep rest with
        | [] => [[c]]
        | t :: ts => (c :: t) :: ts := by
  show splitSeqF sep (rest.length + 1) (c :: rest) = _
  simp only [splitSeqF]
  rw [splitSeqF_irrel sep rest.length (rest.drop (sep.length - 1)).length
        (rest.drop (sep.length - 1)) (by simp only [List.length_drop]; omega) (le_refl _)]
  rfl

/-! ## Helper lemmas: stripping -/

theorem head?_dropWhile_not {p : Char → Bool} {l : Str} {b : Char}
    (h : (l.dropWhile p).head? = some b) : p b = false := by
  induction l with
  | nil => simp [List.dropWhile] at h
  | cons c t ih =>
    rw [List.dropWhile_cons] at h
    by_cases hc : p c
    · rw [if_pos hc] at h; exact ih h
    · rw [if_neg hc] at h
      simp only [List.head?_cons, Option.some.injEq] at h
      rw [← h]; exact Bool.eq_false_iff.mpr hc

theorem getLast?_of_suffix {l₁ l₂ : Str} (h : l₁ <:+ l₂) (hne : l₁ ≠ []) :
    l₂.getLast? = l₁.getLast? := by
  obtain ⟨u, rfl⟩ := h
  rw [List.getLast?_append, List.getLast?_eq_getLast l₁ hne]
  rfl

theorem pyStripP_eq_self {p : Char → Bool} {x : Str}
    (hh : ∀ b, x.head? = some b → p b = false)
    (hl : ∀ b, x.getLast? = some b → p b = false) : pyStripP p x = x := by
  unfold pyStripP
  have h1 : x.dropWhile p = x := by
    cases x with
    | nil => simp
    | cons c t =>
      rw [List.dropWhile_cons]
      rw [hh c (by simp)]
      simp
  rw [h1]
  have h2 : x.reverse.dropWhile p = x.reverse := by
    cases hx : x.reverse with
    | nil => simp
    | cons c t =>
      rw [List.dropWhile_cons]
      have hc : x.getLast? = some c := by
        rw [← List.head?_reverse, hx]; rfl
      rw [hl c hc]
      simp
  rw [h2, List.reverse_reverse]

theorem pyStripP_infix_self (p : Char → Bool) (x : Str) : pyStripP p x <:+: x := by
  unfold pyStripP
  have h1 : x.dropWhile p <:+ x := List.dropWhile_suffix p
  have h2 : (x.dropWhile p).reverse.dropWhile p <:+ (x.dropWhile p).reverse :=
    List.dropWhile_suffix p
  have h3 : ((x.dropWhile p).reverse.dropWhile p).reverse <+: x.dropWhile p := by
    rw [← List.reverse_suffix, List.reverse_reverse]; exact h2
  exact List.infix_iff_prefix_suffix.mpr ⟨_, h3, h1⟩

theorem pyStripP_idem (p : Char → Bool) (x : Str) :
    pyStripP p (pyStripP p x) = pyStripP p x := by
  by_cases hres : pyStripP p x = []
  · rw [hres]; rfl
  · apply pyStripP_eq_self
    · intro b hb
      unfold pyStripP at hb hres
      rw [List.head?_reverse] at hb
      have hrne : (x.dropWhile p).reverse.dropWhile p ≠ [] := by
        intro h0; rw [h0] at hres; exact hres rfl
      have hsuf : (x.dropWhile p).reverse.dropWhile p <:+ (x.dropWhile p).reverse :=
        List.dropWhile_suffix p
      have heq := getLast?_of_suffix hsuf hrne
      rw [← heq, List.getLast?_reverse] at hb
      exact head?_dropWhile_not hb
    · intro b hb
      unfold pyStripP at hb
      rw [List.getLast?_reverse] at hb
      exact head?_dropWhile_not hb


/-! ## Helper lemmas: occurrences and `str.replace` -/

theorem not_isPrefixOf_of_head {sep : Str} {c : Char} {t : Str}
    (hc : c ∉ sep) (hne : sep ≠ []) : ¬ sep.isPrefixOf (c :: t) = true := by
  intro h
  rw [List.isPrefixOf_iff_prefix] at h
  cases sep with
  | nil => exact hne rfl
  | cons a s' =>
    rw [List.cons_prefix_cons] at h
    obtain ⟨rfl, -⟩ := h
    exact hc (List.mem_cons_self _ _)

theorem not_infix_of_sepFree {sep x : Str} (hsep : sep ≠ []) (hfree : SepFree sep x) :
    ¬ sep <:+: x := by
  intro hinf
  cases sep with
  | nil => exact hsep rfl
  | cons a s' =>
    exact hfree a (hinf.subset (List.mem_cons_self _ _)) (List.mem_cons_self _ _)

theorem replaceAll_of_sepFree {sep rep x : Str} (hfree : SepFree sep x) :
    replaceAll sep rep x = x := by
  induction x with
  | nil => rfl
  | cons c t ih =>
    rw [replaceAll_cons]
    have hcond : ¬ (sep ≠ [] ∧ sep.isPrefixOf (c :: t) = true) := by
      rintro ⟨h1, h2⟩
      exact not_isPrefixOf_of_head (hfree c (List.mem_cons_self c t)) h1 h2
    rw [if_neg hcond, ih (fun ch hch => hfree ch (List.mem_cons_of_mem c hch))]

theorem replaceAll_of_not_occur {sep rep : Str} (x : Str) (h : ¬ sep <:+: x) :
    replaceAll sep rep x = x := by
  induction x with
  | nil => rfl
  | cons c t ih =>
    rw [replaceAll_cons]
    have hcond : ¬ (sep ≠ [] ∧ sep.isPrefixOf (c :: t) = true) := by
      rintro ⟨h1, h2⟩
      rw [List.isPrefixOf_iff_prefix] at h2
      exact h h2.isInfix
    rw [if_neg hcond, ih (fun hinf => h (List.infix_cons hinf))]

theorem replaceAll_singleton (a b : Char) (x : Str) :
    replaceAll [a] [b] x = x.map (fun c => if c = a then b else c) := by
  induction x with
  | nil => rfl
  | cons c t ih =>
    rw [replaceAll_cons]
    by_cases hca : c = a
    · subst hca
      have hcond : ([c] : Str) ≠ [] ∧ ([c] : Str).isPrefixOf (c :: t) = true :=
        ⟨by simp, by simp [List.isPrefixOf]⟩
      rw [if_pos hcond]
      simp only [List.length_cons, List.length_nil, Nat.add_sub_cancel, List.drop_zero]
      rw [ih]
      simp
    · have hcond : ¬ (([a] : Str) ≠ [] ∧ ([a] : Str).isPrefixOf (c :: t) = true) := by
        rintro ⟨-, h2⟩
        rw [List.isPrefixOf_iff_prefix, List.cons_prefix_cons] at h2
        exact hca h2.1.symm
      rw [if_neg hcond, ih]
      simp [hca]

theorem prefix_replaceAll {sep rep : Str} (hrep : rep ≠ []) :
    ∀ t u, (∀ ch ∈ u, ch ∉ rep) → u <+: replaceAll sep rep t → u <+: t := by
  suffices H : ∀ n t u, t.length ≤ n → (∀ ch ∈ u, ch ∉ rep) →
      u <+: replaceAll sep rep t → u <+: t by
    exact fun t u hu h => H t.length t u (le_refl _) hu h
  intro n
  induction n with
  | zero =>
    intro t u ht hu h
    have : t = [] := List.eq_nil_of_length_eq_zero (Nat.le_zero.mp ht)
    subst this
    rwa [replaceAll_nil] at h
  | succ n ih =>
    intro t u ht hu h
    cases t with
    | nil => rwa [replaceAll_nil] at h
    | cons c rest =>
      rw [replaceAll_cons] at h
      simp only [List.length_cons] at ht
      by_cases hcond : (sep ≠ [] ∧ sep.isPrefixOf (c :: rest) = true)
      · rw [if_pos hcond] at h
        cases u with
        | nil => exact List.nil_prefix
        | cons a u' =>
          exfalso
          cases rep with
          | nil => exact hrep rfl
          | cons r rs =>
            rw [List.cons_append, List.cons_prefix_cons] at h
            obtain ⟨rfl, -⟩ := h
            exact hu a (List.mem_cons_self _ _) (List.mem_cons_self _ _)
      · rw [if_neg hcond] at h
        cases u with
        | nil => exact List.nil_prefix
        | cons a u' =>
          rw [List.cons_prefix_cons] at h ⊢
          exact ⟨h.1, ih rest u' (by omega)
            (fun ch hch => hu ch (List.mem_cons_of_mem a hch)) h.2⟩

theorem not_infix_replaceAll {sep rep : Str} (hsep : sep ≠ []) (hrep : rep ≠ [])
    (hdisj : ∀ ch ∈ sep, ch ∉ rep) :
    ∀ x, ¬ sep <:+: replaceAll sep rep x := by
  suffices H : ∀ n x, x.length ≤ n → ¬ sep <:+: replaceAll sep rep x by
    exact fun x => H x.length x (le_refl _)
  intro n
  induction n with
  | zero =>
    intro x hx hinf
    have : x = [] := List.eq_nil_of_length_eq_zero (Nat.le_zero.mp hx)
    subst this
    rw [replaceAll_nil] at hinf
    exact hsep (List.eq_nil_of_infix_nil hinf)
  | succ n ih =>
    intro x hx hinf
    cases x with
    | nil =>
      rw [replaceAll_nil] at hinf
      exact hsep (List.eq_nil_of_infix_nil hinf)
    | cons c rest =>
      rw [replaceAll_cons] at hinf
      simp only [List.length_cons] at hx
      by_cases hcond : (sep ≠ [] ∧ sep.isPrefixOf (c :: rest) = true)
      · rw [if_pos hcond] at hinf
        obtain ⟨u, v, huv⟩ := hinf
        rw [List.append_assoc, List.append_eq_append_iff] at huv
        have hdroplen : (rest.drop (sep.length - 1)).length ≤ n := by
          simp only [List.length_drop]; omega
        rcases huv with ⟨a', ha1, ha2⟩ | ⟨c', -, hc2⟩
        · cases a' with
          | nil =>
            refine ih (rest.drop (sep.length - 1)) hdroplen ⟨[], v, ?_⟩
            simp only [List.nil_append] at ha2 ⊢
            exact ha2
          | cons a0 a'' =>
            cases sep with
            | nil => exact hsep rfl
            | cons s0 s' =>
              rw [List.cons_append] at ha2
              have hs0 : s0 = a0 := by
                have := congrArg List.head? ha2
                simpa using this
              have ha0rep : a0 ∈ rep := ha1 ▸ List.mem_append_right u (List.mem_cons_self _ _)
              exact hdisj s0 (List.mem_cons_self _ _) (hs0 ▸ ha0rep)
        · refine ih (rest.drop (sep.length - 1)) hdroplen ⟨c', v, ?_⟩
          rw [hc2, List.append_assoc]
      · rw [if_neg hcond] at hinf
        rw [List.infix_cons_iff] at hinf
        rcases hinf with hpre | hinf'
        · cases sep with
          | nil => exact hsep rfl
          | cons a s' =>
            rw [List.cons_prefix_cons] at hpre
            obtain ⟨rfl, hs'⟩ := hpre
            have hs'rest : s' <+: rest :=
              prefix_replaceAll hrep rest s'
                (fun ch hch => hdisj ch (List.mem_cons_of_mem _ hch)) hs'
            exact hcond ⟨hsep, List.isPrefixOf_iff_prefix.mpr
              (List.cons_prefix_cons.mpr ⟨rfl, hs'rest⟩)⟩
        · exact ih rest (by omega) hinf'

theorem prefix_map_transfer {f : Char → Char} (hf : ∀ c, f c = c ∨ f c = '_') :
    ∀ (t u : Str), '_' ∉ u → u <+: t.map f → u <+: t := by
  intro t
  induction t with
  | nil =>
    intro u hu h
    rw [List.map_nil, List.prefix_nil] at h
    subst h
    exact List.nil_prefix
  | cons c t ih =>
    intro u hu h
    cases u with
    | nil => exact List.nil_prefix
    | cons a u' =>
      rw [List.map_cons, List.cons_prefix_cons] at h
      obtain ⟨ha, h2⟩ := h
      rcases hf c with hc | hc
      · rw [hc] at ha
        subst ha
        exact List.cons_prefix_cons.mpr
          ⟨rfl, ih u' (fun hm => hu (List.mem_cons_of_mem _ hm)) h2⟩
      · rw [hc] at ha
        subst ha
        exact absurd (List.mem_cons_self _ _) hu

theorem not_infix_map {f : Char → Char} (hf : ∀ c, f c = c ∨ f c = '_')
    {sep : Str} (hsep : '_' ∉ sep) :
    ∀ t, ¬ sep <:+: t → ¬ sep <:+: t.map f := by
  intro t
  induction t with
  | nil =>
    intro h hinf
    rw [List.map_nil] at hinf
    have := List.eq_nil_of_infix_nil hinf
    subst this
    exact h List.nil_infix
  | cons c t ih =>
    intro h hinf
    rw [List.map_cons, List.infix_cons_iff] at hinf
    rcases hinf with hpre | hinf'
    · have : sep <+: c :: t := by
        apply prefix_map_transfer hf (c :: t) sep hsep
        rw [List.map_cons]
        exact hpre
      exact h this.isInfix
    · exact ih (fun hx => h (List.infix_cons hx)) hinf'

/-! ## Sanitization: separator safety and idempotence -/

theorem map_id_of {f : Char → Char} : ∀ {l : Str}, (∀ a ∈ l, f a = a) → l.map f = l := by
  intro l h
  induction l with
  | nil => rfl
  | cons c t ih =>
    rw [List.map_cons, h c (List.mem_cons_self _ _),
        ih (fun a ha => h a (List.mem_cons_of_mem _ ha))]

theorem backslash_fun_spec :
    ∀ c, (fun c => if c = '\\' then '_' else c) c = c ∨
         (fun c => if c = '\\' then '_' else c) c = '_' := by
  intro c
  by_cases hc : c = '\\'
  · right; simp [hc]
  · left; simp [hc]

theorem sanitize_not_infix {d : StoreDescriptor}
    (hsep : d.key_separator ≠ []) (hus : '_' ∉ d.key_separator)
    (hns : ¬ d.key_separator <:+: d.default_namespace) (x : Str) :
    ¬ d.key_separator <:+: sanitize_key_segment d x := by
  simp only [sanitize_key_segment]
  by_cases h1 : (x = [] ∨ pyStripWs x = [])
  · rw [if_pos h1]; exact hns
  · rw [if_neg h1]
    have hinf1 : ¬ d.key_separator <:+: replaceAll d.key_separator ['_'] x := by
      apply not_infix_replaceAll hsep (by simp)
      · intro ch hch hmem
        rw [List.mem_singleton] at hmem
        exact hus (hmem ▸ hch)
    have hinf2 : ¬ d.key_separator <:+:
        replaceAll ['\\'] ['_'] (replaceAll d.key_separator ['_'] x) := by
      rw [replaceAll_singleton]
      exact not_infix_map backslash_fun_spec hus _ hinf1
    by_cases h3 : pyStripWs (replaceAll ['\\'] ['_'] (replaceAll d.key_separator ['_'] x)) = []
    · rw [if_pos h3]; exact hns
    · rw [if_neg h3]
      intro hinf
      exact hinf2 (hinf.trans (pyStripP_infix_self _ _))

theorem sanitize_ne_nil {d : StoreDescriptor}
    (hnne : d.default_namespace ≠ []) (x : Str) : sanitize_key_segment d x ≠ [] := by
  simp only [sanitize_key_segment]
  by_cases h1 : (x = [] ∨ pyStripWs x = [])
  · rw [if_pos h1]; exact hnne
  · rw [if_neg h1]
    by_cases h3 : pyStripWs (replaceAll ['\\'] ['_'] (replaceAll d.key_separator ['_'] x)) = []
    · rw [if_pos h3]; exact hnne
    · rw [if_neg h3]; exact h3

theorem sanitize_stripped {d : StoreDescriptor}
    (hnss : pyStripWs d.default_namespace = d.default_namespace) (x : Str) :
    pyStripWs (sanitize_key_segment d x) = sanitize_key_segment d x := by
  simp only [sanitize_key_segment]
  by_cases h1 : (x = [] ∨ pyStripWs x = [])
  · rw [if_pos h1]; exact hnss
  · rw [if_neg h1]
    by_cases h3 : pyStripWs (replaceAll ['\\'] ['_'] (replaceAll d.key_separator ['_'] x)) = []
    · rw [if_pos h3]; exact hnss
    · rw [if_neg h3]; exact pyStripP_idem _ _

theorem sanitize_no_backslash {d : StoreDescriptor}
    (hnsb : '\\' ∉ d.default_namespace) (x : Str) :
    '\\' ∉ sanitize_key_segment d x := by
  simp only [sanitize_key_segment]
  by_cases h1 : (x = [] ∨ pyStripWs x = [])
  · rw [if_pos h1]; exact hnsb
  · rw [if_neg h1]
    have hnb2 : '\\' ∉ replaceAll ['\\'] ['_'] (replaceAll d.key_separator ['_'] x) := by
      rw [replaceAll_singleton]
      intro hmem
      obtain ⟨c, -, hc⟩ := List.mem_map.mp hmem
      by_cases hcb : c = '\\'
      · rw [if_pos hcb] at hc; exact absurd hc (by decide)
      · rw [if_neg hcb] at hc; exact hcb hc
    by_cases h3 : pyStripWs (replaceAll ['\\'] ['_'] (replaceAll d.key_separator ['_'] x)) = []
    · rw [if_pos h3]; exact hnsb
    · rw [if_neg h3]
      intro hmem
      exact hnb2 ((pyStripP_infix_self _ _).subset hmem)

theorem sanitize_idem {d : StoreDescriptor}
    (hsep : d.key_separator ≠ []) (hus : '_' ∉ d.key_separator)
    (hns : ¬ d.key_separator <:+: d.default_namespace)
    (hnsb : '\\' ∉ d.default_namespace)
    (hnss : pyStripWs d.default_namespace = d.default_namespace)
    (hnne : d.default_namespace ≠ []) (x : Str) :
    sanitize_key_segment d (sanitize_key_segment d x) = sanitize_key_segment d x := by
  have hyne : sanitize_key_segment d x ≠ [] := sanitize_ne_nil hnne x
  have hystrip : pyStripWs (sanitize_key_segment d x) = sanitize_key_segment d x :=
    sanitize_stripped hnss x
  have hyinf : ¬ d.key_separator <:+: sanitize_key_segment d x :=
    sanitize_not_infix hsep hus hns x
  have hyb : '\\' ∉ sanitize_key_segment d x := sanitize_no_backslash hnsb x
  conv_lhs => rw [sanitize_key_segment]
  dsimp only
  rw [if_neg (by rw [hystrip]; intro h; rcases h with h | h <;> exact hyne h)]
  rw [replaceAll_of_not_occur _ hyinf]
  have hbs : replaceAll ['\\'] ['_'] (sanitize_key_segment d x) = sanitize_key_segment d x := by
    rw [replaceAll_singleton]
    apply map_id_of
    intro a ha
    show (if a = '\\' then '_' else a) = a
    rw [if_neg (by intro h; exact hyb (h ▸ ha))]
  rw [hbs, hystrip, if_neg hyne]


/-! ## Claim C3: separator safety of `sanitize_key_segment` -/

/-- C3, counterexample: the claim quantifies over every store descriptor,
including GitHub's two-character separator `__`; there it fails:
`sanitize_key_segment("___")` is `"__"`, which contains the separator
(the single replacement pass `"___".replace("__", "_")` yields `"__"`). -/
theorem claim_C3_counterexample :
    sanitize_key_segment gitHubDescriptor "___".toList = "__".toList ∧
    gitHubDescriptor.key_separator <:+:
      sanitize_key_segment gitHubDescriptor "___".toList :=
  ⟨by decide, by decide⟩

/-- C3, amended: for every repository store descriptor whose key separator
contains no underscore (all of them except GitHub's `__`),
`sanitize_key_segment` never produces a string containing the key
separator. -/
theorem claim_C3_theorem (d : StoreDescriptor) (hd : d ∈ nonUnderscoreDescriptors)
    (x : Str) : ¬ d.key_separator <:+: sanitize_key_segment d x := by
  have h : d.key_separator ≠ [] ∧ '_' ∉ d.key_separator ∧
      ¬ d.key_separator <:+: d.default_namespace := by
    fin_cases hd <;> exact ⟨by decide, by decide, by decide⟩
  exact sanitize_not_infix h.1 h.2.1 h.2.2 x

/-- Witness: the amended C3 at the AWS descriptor and input `"a/b"`. -/
theorem claim_C3_theorem_witness :
    awsSsmDescriptor ∈ nonUnderscoreDescriptors ∧
    ¬ awsSsmDescriptor.key_separator <:+:
        sanitize_key_segment awsSsmDescriptor "a/b".toList :=
  ⟨by decide, claim_C3_theorem awsSsmDescriptor (by decide) "a/b".toList⟩

/-! ## Claim C4: idempotence of `sanitize_key_segment` -/

/-- C4, counterexample: with GitHub's separator `__`,
`sanitize("___") = "__"` but `sanitize(sanitize("___")) = "_"`, so the
claimed idempotence fails on the GitHub descriptor. -/
theorem claim_C4_counterexample :
    sanitize_key_segment gitHubDescriptor
        (sanitize_key_segment gitHubDescriptor "___".toList) = "_".toList ∧
    sanitize_key_segment gitHubDescriptor "___".toList = "__".toList ∧
    sanitize_key_segment gitHubDescriptor
        (sanitize_key_segment gitHubDescriptor "___".toList) ≠
      sanitize_key_segment gitHubDescriptor "___".toList :=
  ⟨by decide, by decide, by decide⟩

/-- C4, amended: `sanitize_key_segment` is idempotent for every repository
store descriptor whose key separator contains no underscore (all except
GitHub's `__`). -/
theorem claim_C4_theorem (d : StoreDescriptor) (hd : d ∈ nonUnderscoreDescriptors)
    (x : Str) :
    sanitize_key_segment d (sanitize_key_segment d x) = sanitize_key_segment d x := by
  have h : d.key_separator ≠ [] ∧ '_' ∉ d.key_separator ∧
      (¬ d.key_separator <:+: d.default_namespace) ∧ '\\' ∉ d.default_namespace ∧
      pyStripWs d.default_namespace = d.default_namespace ∧ d.default_namespace ≠ [] := by
    fin_cases hd <;>
      exact ⟨by decide, by decide, by decide, by decide, by decide, by decide⟩
  exact sanitize_idem h.1 h.2.1 h.2.2.1 h.2.2.2.1 h.2.2.2.2.1 h.2.2.2.2.2 x

/-- Witness: the amended C4 at the keychain descriptor and input `" x\y "`. -/
theorem claim_C4_theorem_witness :
    keychainDescriptor ∈ nonUnderscoreDescriptors ∧
    sanitize_key_segment keychainDescriptor
        (sanitize_key_segment keychainDescriptor " x\\y ".toList) =
      sanitize_key_segment keychainDescriptor " x\\y ".toList :=
  ⟨by decide, claim_C4_theorem keychainDescriptor (by decide) " x\\y ".toList⟩


/-! ## Claim C5: the behaviour of `parse_key` -/

/-- C5, counterexample: `parse_key` does not strip just one leading and
one trailing separator: Python's `strip(sep)` removes ALL separator
characters at both ends.  On the AWS descriptor and the key
`"a/b/c/d/e_1//"`, the claim's procedure yields
`{prefix b, domain c, project d, version "e_1", name ""}` while the code
yields `{prefix a, domain b, project c, version "d", name "e_1"}` (the
code also rewrites `_` in the version to `.` even though this
descriptor's version separator is `"."`). -/
theorem claim_C5_counterexample :
    parse_key_claimC5 awsSsmDescriptor "a/b/c/d/e_1//".toList =
      some { pfx := "b".toList, project := "d".toList, domain := "c".toList,
             version := "e_1".toList, name := [] } ∧
    parse_key awsSsmDescriptor "a/b/c/d/e_1//".toList =
      some { pfx := "a".toList, project := "c".toList, domain := "b".toList,
             version := "d".toList, name := "e_1".toList } ∧
    parse_key_claimC5 awsSsmDescriptor "a/b/c/d/e_1//".toList ≠
      parse_key awsSsmDescriptor "a/b/c/d/e_1//".toList :=
  ⟨by decide, by decide, by decide⟩

/-- C5, amended: for every descriptor with a non-empty separator,
`parse_key` strips ALL leading/trailing separator characters (Python
`str.strip(sep)` semantics), splits on the separator, returns `none`
under five segments, takes the last five as
`[prefix, domain, project, version, name]` (tolerating extra prepended
segments) and replaces underscores by dots in the version segment. -/
theorem claim_C5_theorem (d : StoreDescriptor) (hsep : d.key_separator ≠ [])
    (key : Str) : parse_key d key = parse_key_amendedC5 d key := by
  simp only [parse_key, parse_key_amendedC5]
  rw [if_neg hsep]
  by_cases h0 : pyStripChars d.key_separator key = []
  · rw [if_pos h0, h0, splitSeq_nil]
    rfl
  · rw [if_neg h0]
    have hlen : (splitSeq d.key_separator (pyStripChars d.key_separator key)).reverse.length
        = (splitSeq d.key_separator (pyStripChars d.key_separator key)).length :=
      List.length_reverse _
    rcases hr : (splitSeq d.key_separator (pyStripChars d.key_separator key)).reverse with
      _ | ⟨n, _ | ⟨v, _ | ⟨pj, _ | ⟨dm, _ | ⟨pf, ts⟩⟩⟩⟩⟩ <;>
      rw [hr] at hlen
    · rw [if_pos (by rw [← hlen]; simp)]
    · rw [if_pos (by rw [← hlen]; simp)]
    · rw [if_pos (by rw [← hlen]; simp)]
    · rw [if_pos (by rw [← hlen]; simp)]
    · rw [if_pos (by rw [← hlen]; simp)]
    · rw [if_neg (by rw [← hlen]; simp only [List.length_cons]; omega)]
      rfl

/-- Witness: the amended C5 at the keychain descriptor and the
path-style key of the spec's concrete scenario. -/
theorem claim_C5_theorem_witness :
    keychainDescriptor.key_separator ≠ [] ∧
    parse_key keychainDescriptor "/envr/prod/billing/1_0_0/API_KEY".toList =
      parse_key_amendedC5 keychainDescriptor "/envr/prod/billing/1_0_0/API_KEY".toList :=
  ⟨by decide,
   claim_C5_theorem keychainDescriptor (by decide) "/envr/prod/billing/1_0_0/API_KEY".toList⟩


/-! ## Claim C6: `InvalidVersion` at adapter construction -/

/-- C6, counterexample: the constructors validate with
`bool(_SEMVER_PATTERN.match(version))`.  The pattern is anchored with
`$`, and Python's `$` also matches just before one trailing newline, so
the string `"1.0.0\n"` -- which is not strict three-component semver --
is accepted and `AwsSsmStore.__init__` succeeds instead of raising
`InvalidVersion`. -/
theorem claim_C6_counterexample :
    semverGrammar "1.0.0\n".toList = false ∧
    is_valid_semver "1.0.0\n".toList = true ∧
    (awsSsmInit "/envr/".toList none none true "1.0.0\n".toList
        "_default_".toList "_default_".toList).isOk = true :=
  ⟨by decide, by decide, by decide⟩

/-- C6, amended: each adapter constructor fails with `InvalidVersion`
exactly when the version string fails the source's compiled semver regex
(strict semver, optionally followed by a single trailing newline), before
any backend interaction: the AWS store creates its client lazily, the
GitHub store checks for the `gh` binary only after the version check, and
the keychain store makes no system call; in particular
`AwsSsmStore(version="1.0")` raises.  (The regex is modelled with ASCII
digits; Python's `\d` would additionally accept non-ASCII decimal
digits.) -/
theorem claim_C6_theorem :
    (∀ pfx0 profile region secure version domain project,
        awsSsmInit pfx0 profile region secure version domain project
            = Except.error StoreInitError.invalidVersion ↔
          is_valid_semver version = false) ∧
    (∀ project domain version,
        keychainInit project domain version
            = Except.error StoreInitError.invalidVersion ↔
          is_valid_semver version = false) ∧
    (∀ gh pfx0 repo version domain project, is_valid_semver version = false →
        gitHubInit gh pfx0 repo version domain project
          = Except.error StoreInitError.invalidVersion) ∧
    awsSsmInit "/envr/".toList none none true "1.0".toList
        "_default_".toList "_default_".toList
      = Except.error StoreInitError.invalidVersion := by
  refine ⟨?_, ?_, ?_, by rfl⟩
  · intro pfx0 profile region secure version domain project
    cases hv : is_valid_semver version <;> simp [awsSsmInit, hv]
  · intro project domain version
    cases hv : is_valid_semver version <;> simp [keychainInit, hv]
  · intro gh pfx0 repo version domain project h
    simp [gitHubInit, h]

/-- Witness: the amended C6's GitHub clause at `version = "1.0"` with the
`gh` CLI present. -/
theorem claim_C6_theorem_witness :
    is_valid_semver "1.0".toList = false ∧
    gitHubInit true [] none "1.0".toList "_default_".toList "_default_".toList
      = Except.error StoreInitError.invalidVersion :=
  ⟨by decide,
   claim_C6_theorem.2.2.1 true [] none "1.0".toList
     "_default_".toList "_default_".toList (by decide)⟩


/-! ## Split lemmas for the round trip -/

theorem contains_eq_false_of_not_mem {cs : Str} {c : Char} (h : c ∉ cs) :
    cs.contains c = false := by
  rw [Bool.eq_false_iff]
  intro hc
  have helem : List.elem c cs = true := hc
  exact h (List.elem_iff.mp helem)

theorem splitSeq_no_match {sep x : Str}
    (h : ∀ v, v ≠ [] → v <:+ x → ¬ sep <+: v) : splitSeq sep x = [x] := by
  induction x with
  | nil => exact splitSeq_nil sep
  | cons c t ih =>
    rw [splitSeq_cons]
    have hcond : ¬ (sep ≠ [] ∧ sep.isPrefixOf (c :: t) = true) := by
      rintro ⟨-, h2⟩
      exact h (c :: t) (by simp) (List.suffix_refl _) (List.isPrefixOf_iff_prefix.mp h2)
    rw [if_neg hcond, ih (fun v hv hsuf => h v hv (hsuf.trans (List.suffix_cons c t)))]

theorem splitSeq_append (sep : Str) (hsep : sep ≠ []) :
    ∀ (x y : Str), (∀ v, v ≠ [] → v <:+ x → ¬ sep <+: (v ++ (sep ++ y))) →
      splitSeq sep (x ++ (sep ++ y)) = x :: splitSeq sep y := by
  intro x
  induction x with
  | nil =>
    intro y _
    obtain ⟨s0, s', rfl⟩ := List.exists_cons_of_ne_nil hsep
    rw [List.nil_append, List.cons_append, splitSeq_cons]
    rw [if_pos ⟨hsep, List.isPrefixOf_iff_prefix.mpr
      (by rw [← List.cons_append]; exact List.prefix_append _ _)⟩]
    simp only [List.length_cons, Nat.add_sub_cancel]
    rw [List.drop_left]
  | cons c x' ih =>
    intro y h
    have hshape : (c :: x') ++ (sep ++ y) = c :: (x' ++ (sep ++ y)) := by simp
    rw [hshape, splitSeq_cons]
    have hcond : ¬ (sep ≠ [] ∧ sep.isPrefixOf (c :: (x' ++ (sep ++ y))) = true) := by
      rintro ⟨-, h2⟩
      refine h (c :: x') (by simp) (List.suffix_refl _) ?_
      rw [hshape]
      exact List.isPrefixOf_iff_prefix.mp h2
    rw [if_neg hcond,
        ih y (fun v hv hsuf => h v hv (hsuf.trans (List.suffix_cons c x')))]

theorem sepFree_suffix_cond {sep x : Str} (hfree : SepFree sep x) (hsep : sep ≠ [])
    (y : Str) : ∀ v, v ≠ [] → v <:+ x → ¬ sep <+: (v ++ (sep ++ y)) := by
  intro v hv hsuf hpre
  obtain ⟨a, v', rfl⟩ := List.exists_cons_of_ne_nil hv
  obtain ⟨s0, s', rfl⟩ := List.exists_cons_of_ne_nil hsep
  rw [List.cons_append, List.cons_prefix_cons] at hpre
  obtain ⟨rfl, -⟩ := hpre
  exact hfree s0 (hsuf.subset (List.mem_cons_self _ _)) (List.mem_cons_self _ _)

theorem sepFree_final_cond {sep x : Str} (hfree : SepFree sep x) (hsep : sep ≠ []) :
    ∀ v, v ≠ [] → v <:+ x → ¬ sep <+: v := by
  intro v hv hsuf hpre
  obtain ⟨a, v', rfl⟩ := List.exists_cons_of_ne_nil hv
  obtain ⟨s0, s', rfl⟩ := List.exists_cons_of_ne_nil hsep
  rw [List.cons_prefix_cons] at hpre
  obtain ⟨rfl, -⟩ := hpre
  exact hfree s0 (hsuf.subset (List.mem_cons_self _ _)) (List.mem_cons_self _ _)


/-! ## Segments that survive sanitization, and version-segment shapes -/

theorem sanitize_eq_self {d : StoreDescriptor} {x : Str} (hx : SegGood d x) :
    sanitize_key_segment d x = x := by
  obtain ⟨hne, hfree, hbs, hh, hl⟩ := hx
  have hh' : ∀ b, x.head? = some b → pyIsSpace b = false := by
    intro b hb
    rw [hb] at hh
    simpa using hh
  have hl' : ∀ b, x.getLast? = some b → pyIsSpace b = false := by
    intro b hb
    rw [hb] at hl
    simpa using hl
  have hstrip : pyStripWs x = x := by
    unfold pyStripWs
    exact pyStripP_eq_self hh' hl'
  simp only [sanitize_key_segment]
  rw [if_neg (by rw [hstrip]; rintro (h | h) <;> exact hne h)]
  rw [replaceAll_of_sepFree hfree]
  have hbsrw : replaceAll ['\\'] ['_'] x = x := by
    rw [replaceAll_singleton]
    refine map_id_of (fun a ha => ?_)
    have hab : a ≠ '\\' := fun h => hbs (by rw [← h]; exact ha)
    rw [if_neg hab]
  rw [hbsrw, hstrip, if_neg hne]

theorem chain'_of_no_underscore {l : Str} (h : ∀ ch ∈ l, ch ≠ '_') :
    List.Chain' (fun p q => ¬ (p = '_' ∧ q = '_')) l := by
  induction l with
  | nil => exact List.chain'_nil
  | cons a t ih =>
    cases t with
    | nil => exact List.chain'_singleton a
    | cons b t' =>
      rw [List.chain'_cons]
      exact ⟨fun hpq => h a (List.mem_cons_self _ _) hpq.1,
             ih (fun ch hch => h ch (List.mem_cons_of_mem a hch))⟩

theorem no_double_underscore_of_chain' {x : Str}
    (h : List.Chain' (fun p q => ¬ (p = '_' ∧ q = '_')) x) :
    ¬ ('_' :: '_' :: ([] : Str)) <:+: x := by
  intro hinf
  have hc := h.infix hinf
  rw [List.chain'_cons] at hc
  exact hc.1 ⟨rfl, rfl⟩

theorem chain'_version_shape {a b c : Str}
    (ha : ∀ ch ∈ a, ch ≠ '_') (hb : ∀ ch ∈ b, ch ≠ '_') (hc : ∀ ch ∈ c, ch ≠ '_')
    (hbne : b ≠ []) (hcne : c ≠ []) :
    List.Chain' (fun p q => ¬ (p = '_' ∧ q = '_')) (a ++ '_' :: (b ++ '_' :: c)) := by
  rw [List.chain'_append]
  refine ⟨chain'_of_no_underscore ha, ?_, ?_⟩
  · obtain ⟨b0, b', rfl⟩ := List.exists_cons_of_ne_nil hbne
    rw [List.cons_append, List.chain'_cons]
    refine ⟨fun hpq => hb b0 (List.mem_cons_self _ _) hpq.2, ?_⟩
    rw [← List.cons_append, List.chain'_append]
    refine ⟨chain'_of_no_underscore hb, ?_, ?_⟩
    · obtain ⟨c0, c', rfl⟩ := List.exists_cons_of_ne_nil hcne
      rw [List.chain'_cons]
      exact ⟨fun hpq => hc c0 (List.mem_cons_self _ _) hpq.2,
             chain'_of_no_underscore hc⟩
    · intro p hp q _ hpq
      exact hb p (List.mem_of_mem_getLast? hp) hpq.1
  · intro p hp q _ hpq
    exact ha p (List.mem_of_mem_getLast? hp) hpq.1

theorem getLast?_version_shape {a b c : Str} (hcne : c ≠ []) :
    (a ++ '_' :: (b ++ '_' :: c)).getLast? = c.getLast? := by
  have hsuf : c <:+ a ++ '_' :: (b ++ '_' :: c) := by
    have h1 : c <:+ '_' :: c := List.suffix_cons _ _
    have h2 : c <:+ b ++ '_' :: c := h1.trans (List.suffix_append b ('_' :: c))
    have h3 : c <:+ '_' :: (b ++ '_' :: c) := h2.trans (List.suffix_cons _ _)
    exact h3.trans (List.suffix_append a _)
  exact getLast?_of_suffix hsuf hcne

theorem github_version_cond {a b c : Str}
    (ha : ∀ ch ∈ a, ch ≠ '_') (hb : ∀ ch ∈ b, ch ≠ '_') (hc : ∀ ch ∈ c, ch ≠ '_')
    (hbne : b ≠ []) (hcne : c ≠ []) (y : Str) :
    ∀ v, v ≠ [] → v <:+ (a ++ '_' :: (b ++ '_' :: c)) →
      ¬ ('_' :: '_' :: ([] : Str)) <+:
          (v ++ (('_' :: '_' :: ([] : Str)) ++ y)) := by
  intro v hv hsuf hpre
  obtain ⟨e, v', rfl⟩ := List.exists_cons_of_ne_nil hv
  cases v' with
  | nil =>
    rw [List.cons_append, List.nil_append, List.cons_prefix_cons] at hpre
    obtain ⟨he, -⟩ := hpre
    have hxl := getLast?_of_suffix hsuf (by simp)
    rw [getLast?_version_shape hcne] at hxl
    have hec : e ∈ c := List.mem_of_mem_getLast? (by
      rw [Option.mem_def, hxl]; rfl)
    exact hc e hec he.symm
  | cons f v'' =>
    rw [List.cons_append, List.cons_prefix_cons] at hpre
    obtain ⟨he, hpre2⟩ := hpre
    rw [List.cons_append, List.cons_prefix_cons] at hpre2
    obtain ⟨hf, -⟩ := hpre2
    have hvpre : ('_' :: '_' :: ([] : Str)) <+: (e :: f :: v'') := by
      rw [← he, ← hf]
      exact ⟨v'', rfl⟩
    have hinf : ('_' :: '_' :: ([] : Str)) <:+: (a ++ '_' :: (b ++ '_' :: c)) :=
      List.infix_iff_prefix_suffix.mpr ⟨e :: f :: v'', hvpre, hsuf⟩
    exact no_double_underscore_of_chain'
      (chain'_version_shape ha hb hc hbne hcne) hinf

theorem replaceAll_dot_version (vsep : Char) {a b c : Str}
    (ha : ∀ ch ∈ a, ch ≠ '.') (hb : ∀ ch ∈ b, ch ≠ '.') (hc : ∀ ch ∈ c, ch ≠ '.') :
    replaceAll ['.'] [vsep] (a ++ '.' :: (b ++ '.' :: c)) =
      a ++ vsep :: (b ++ vsep :: c) := by
  rw [replaceAll_singleton]
  simp only [List.map_append, List.map_cons]
  rw [map_id_of (fun x hx => by rw [if_neg (ha x hx)]),
      map_id_of (fun x hx => by rw [if_neg (hb x hx)]),
      map_id_of (fun x hx => by rw [if_neg (hc x hx)])]
  simp

theorem replaceAll_underscore_version {vsep : Char} (hv : vsep = '.' ∨ vsep = '_')
    {a b c : Str}
    (ha : ∀ ch ∈ a, ch ≠ '_') (hb : ∀ ch ∈ b, ch ≠ '_') (hc : ∀ ch ∈ c, ch ≠ '_') :
    replaceAll ['_'] ['.'] (a ++ vsep :: (b ++ vsep :: c)) =
      a ++ '.' :: (b ++ '.' :: c) := by
  rw [replaceAll_singleton]
  simp only [List.map_append, List.map_cons]
  rw [map_id_of (fun x hx => by rw [if_neg (ha x hx)]),
      map_id_of (fun x hx => by rw [if_neg (hb x hx)]),
      map_id_of (fun x hx => by rw [if_neg (hc x hx)])]
  rcases hv with rfl | rfl <;> simp


/-! ## The round trip `parse_key (build_key ...)` -/

theorem suffix_lift {A B C : Str} (h : B <:+ C) : B <:+ A ++ C :=
  h.trans (List.suffix_append A C)

theorem parse_build_roundtrip (d : StoreDescriptor)
    (hsep : d.key_separator ≠ [])
    (hpne : d.pfx ≠ []) (hpfree : SepFree d.key_separator d.pfx)
    {name project domain : Str}
    (hn : SegGood d name) (hpj : SegGood d project) (hdm : SegGood d domain)
    {version vs : Str}
    (hvs : replaceAll ['.'] d.version_separator version = vs)
    (hvcond : ∀ v, v ≠ [] → v <:+ vs →
        ¬ d.key_separator <+: (v ++ (d.key_separator ++ name)))
    (hvnorm : replaceAll ['_'] ['.'] vs = version) :
    parse_key d (build_key d name project domain version) =
      some { pfx := d.pfx, project := project, domain := domain,
             version := version, name := name } := by
  have hkey : build_key d name project domain version =
      d.pfx ++ (d.key_separator ++ (domain ++ (d.key_separator ++ (project ++
        (d.key_separator ++ (vs ++ (d.key_separator ++ name))))))) := by
    simp only [build_key, sanitize_eq_self hn, sanitize_eq_self hpj,
      sanitize_eq_self hdm, hvs, List.append_assoc]
  rw [hkey]
  set K := d.pfx ++ (d.key_separator ++ (domain ++ (d.key_separator ++ (project ++
    (d.key_separator ++ (vs ++ (d.key_separator ++ name))))))) with hK
  have hsufname : name <:+ K := by
    rw [hK]
    exact suffix_lift (suffix_lift (suffix_lift (suffix_lift (suffix_lift
      (suffix_lift (suffix_lift (List.suffix_append _ _)))))))
  have hKne : K ≠ [] := by
    rw [hK]
    exact List.append_ne_nil_of_left_ne_nil hpne _
  have hstripK : pyStripChars d.key_separator K = K := by
    unfold pyStripChars
    apply pyStripP_eq_self
    · intro b hb
      obtain ⟨p0, p', hp⟩ := List.exists_cons_of_ne_nil hpne
      rw [hK, hp, List.cons_append, List.head?_cons, Option.some.injEq] at hb
      apply contains_eq_false_of_not_mem
      apply hpfree b
      rw [hp, ← hb]
      exact List.mem_cons_self _ _
    · intro b hb
      rw [getLast?_of_suffix hsufname hn.1] at hb
      apply contains_eq_false_of_not_mem
      exact hn.2.1 b (List.mem_of_mem_getLast? hb)
  have hsplit : splitSeq d.key_separator K =
      [d.pfx, domain, project, vs, name] := by
    rw [hK]
    rw [splitSeq_append _ hsep _ _ (sepFree_suffix_cond hpfree hsep _)]
    rw [splitSeq_append _ hsep _ _ (sepFree_suffix_cond hdm.2.1 hsep _)]
    rw [splitSeq_append _ hsep _ _ (sepFree_suffix_cond hpj.2.1 hsep _)]
    rw [splitSeq_append _ hsep _ _ hvcond]
    rw [splitSeq_no_match (sepFree_final_cond hn.2.1 hsep)]
  simp only [parse_key]
  rw [if_neg hsep, hstripK, if_neg hKne, hsplit]
  rw [if_neg (by simp)]
  have hrev : ([d.pfx, domain, project, vs, name] : List Str).reverse =
      [name, vs, project, domain, d.pfx] := rfl
  rw [hrev]
  simp only [List.getD_cons_zero, List.getD_cons_succ]
  rw [hvnorm]


/-! ## Claim C1: the round trip -/

theorem digit_facts {c : Char} (h : c.isDigit = true) :
    c ≠ '.' ∧ c ≠ '_' ∧ c ≠ '/' ∧ c ≠ '-' := by
  refine ⟨?_, ?_, ?_, ?_⟩ <;> (intro hEq; rw [hEq] at h; exact absurd h (by decide))

theorem digit_not_mem {cs : Str} (hcs : cs.all (fun c => !(c.isDigit)) = true)
    {ch : Char} (h : ch.isDigit = true) : ch ∉ cs := by
  intro hm
  have hx := List.all_eq_true.mp hcs ch hm
  rw [h] at hx
  exact absurd hx (by decide)

theorem sepFree_version_shape {sep : Str} {vsep : Char} {a b c : Str}
    (ha : ∀ ch ∈ a, ch.isDigit = true) (hb : ∀ ch ∈ b, ch.isDigit = true)
    (hc : ∀ ch ∈ c, ch.isDigit = true)
    (hdig : ∀ ch, ch.isDigit = true → ch ∉ sep) (hv : vsep ∉ sep) :
    SepFree sep (a ++ vsep :: (b ++ vsep :: c)) := by
  intro ch hch
  rcases List.mem_append.mp hch with h | h
  · exact hdig ch (ha ch h)
  · rcases List.mem_cons.mp h with rfl | h2
    · exact hv
    · rcases List.mem_append.mp h2 with h3 | h3
      · exact hdig ch (hb ch h3)
      · rcases List.mem_cons.mp h3 with rfl | h4
        · exact hv
        · exact hdig ch (hc ch h4)

/-- C1, counterexample.  The claim's hypotheses (no occurrence of the key
separator, no backslash, non-blank after trimming) are not sufficient:
(i) keychain descriptor, name `" a"` (blank-padded but non-blank): the
round trip returns name `"a"`, not `" a"`, because `sanitize_key_segment`
strips surrounding whitespace; (ii) GitHub descriptor (separator `__`),
domain `"d_"` (no occurrence of `__`): the built key contains `d___p`
and parses back with domain `"d"` and project `"_p"`. -/
theorem claim_C1_counterexample :
    parse_key keychainDescriptor
        (build_key keychainDescriptor " a".toList "billing".toList
          "prod".toList "1.0.0".toList) =
      some { pfx := "envr".toList, project := "billing".toList,
             domain := "prod".toList, version := "1.0.0".toList,
             name := "a".toList } ∧
    (" a".toList : Str) ≠ "a".toList ∧
    parse_key gitHubDescriptor
        (build_key gitHubDescriptor "N".toList "p".toList
          "d_".toList "1.0.0".toList) =
      some { pfx := "ENVR".toList, project := "_p".toList,
             domain := "d".toList, version := "1.0.0".toList,
             name := "N".toList } ∧
    parse_key gitHubDescriptor
        (build_key gitHubDescriptor "N".toList "p".toList
          "d_".toList "1.0.0".toList) ≠
      some { pfx := "ENVR".toList, project := "p".toList,
             domain := "d_".toList, version := "1.0.0".toList,
             name := "N".toList } :=
  ⟨by decide, by decide, by decide, by decide⟩

/-- C1, amended: for every repository store descriptor and every
name / project / domain that is non-empty, contains no CHARACTER of the
descriptor's key separator, no backslash, and no leading or trailing
whitespace, and every plain three-component numeric version
`a.b.c` (`a`, `b`, `c` non-empty digit strings),
`parse_key (build_key name project domain version)` succeeds and returns
exactly `{prefix, domain, project, version, name}`. -/
theorem claim_C1_theorem (d : StoreDescriptor) (hd : d ∈ allDescriptors)
    (name project domain : Str)
    (hn : SegGood d name) (hpj : SegGood d project) (hdm : SegGood d domain)
    (a b c : Str) (hbne : b ≠ []) (hcne : c ≠ [])
    (ha : ∀ ch ∈ a, ch.isDigit = true) (hb : ∀ ch ∈ b, ch.isDigit = true)
    (hc : ∀ ch ∈ c, ch.isDigit = true) :
    parse_key d (build_key d name project domain (a ++ '.' :: (b ++ '.' :: c))) =
      some { pfx := d.pfx, project := project, domain := domain,
             version := a ++ '.' :: (b ++ '.' :: c), name := name } := by
  have hadot : ∀ ch ∈ a, ch ≠ '.' := fun ch h => (digit_facts (ha ch h)).1
  have hbdot : ∀ ch ∈ b, ch ≠ '.' := fun ch h => (digit_facts (hb ch h)).1
  have hcdot : ∀ ch ∈ c, ch ≠ '.' := fun ch h => (digit_facts (hc ch h)).1
  have haus : ∀ ch ∈ a, ch ≠ '_' := fun ch h => (digit_facts (ha ch h)).2.1
  have hbus : ∀ ch ∈ b, ch ≠ '_' := fun ch h => (digit_facts (hb ch h)).2.1
  have hcus : ∀ ch ∈ c, ch ≠ '_' := fun ch h => (digit_facts (hc ch h)).2.1
  fin_cases hd
  case _ =>
    exact parse_build_roundtrip _ (by decide) (by decide) (by decide) hn hpj hdm
      (replaceAll_dot_version '.' hadot hbdot hcdot)
      (sepFree_suffix_cond
        (sepFree_version_shape ha hb hc (fun ch h => digit_not_mem (by decide) h)
          (by decide)) (by decide) name)
      (replaceAll_underscore_version (Or.inl rfl) haus hbus hcus)
  case _ =>
    exact parse_build_roundtrip _ (by decide) (by decide) (by decide) hn hpj hdm
      (replaceAll_dot_version '_' hadot hbdot hcdot)
      (sepFree_suffix_cond
        (sepFree_version_shape ha hb hc (fun ch h => digit_not_mem (by decide) h)
          (by decide)) (by decide) name)
      (replaceAll_underscore_version (Or.inr rfl) haus hbus hcus)
  case _ =>
    exact parse_build_roundtrip _ (by decide) (by decide) (by decide) hn hpj hdm
      (replaceAll_dot_version '.' hadot hbdot hcdot)
      (sepFree_suffix_cond
        (sepFree_version_shape ha hb hc (fun ch h => digit_not_mem (by decide) h)
          (by decide)) (by decide) name)
      (replaceAll_underscore_version (Or.inl rfl) haus hbus hcus)
  case _ =>
    exact parse_build_roundtrip _ (by decide) (by decide) (by decide) hn hpj hdm
      (replaceAll_dot_version '.' hadot hbdot hcdot)
      (sepFree_suffix_cond
        (sepFree_version_shape ha hb hc (fun ch h => digit_not_mem (by decide) h)
          (by decide)) (by decide) name)
      (replaceAll_underscore_version (Or.inl rfl) haus hbus hcus)
  case _ =>
    exact parse_build_roundtrip _ (by decide) (by decide) (by decide) hn hpj hdm
      (replaceAll_dot_version '.' hadot hbdot hcdot)
      (sepFree_suffix_cond
        (sepFree_version_shape ha hb hc (fun ch h => digit_not_mem (by decide) h)
          (by decide)) (by decide) name)
      (replaceAll_underscore_version (Or.inl rfl) haus hbus hcus)
  case _ =>
    exact parse_build_roundtrip _ (by decide) (by decide) (by decide) hn hpj hdm
      (replaceAll_dot_version '.' hadot hbdot hcdot)
      (sepFree_suffix_cond
        (sepFree_version_shape ha hb hc (fun ch h => digit_not_mem (by decide) h)
          (by decide)) (by decide) name)
      (replaceAll_underscore_version (Or.inl rfl) haus hbus hcus)
  case _ =>
    exact parse_build_roundtrip _ (by decide) (by decide) (by decide) hn hpj hdm
      (replaceAll_dot_version '.' hadot hbdot hcdot)
      (sepFree_suffix_cond
        (sepFree_version_shape ha hb hc (fun ch h => digit_not_mem (by decide) h)
          (by decide)) (by decide) name)
      (replaceAll_underscore_version (Or.inl rfl) haus hbus hcus)
  case _ =>
    exact parse_build_roundtrip _ (by decide) (by decide) (by decide) hn hpj hdm
      (replaceAll_dot_version '_' hadot hbdot hcdot)
      (github_version_cond haus hbus hcus hbne hcne name)
      (replaceAll_underscore_version (Or.inr rfl) haus hbus hcus)

/-- Witness: the amended C1 at the keychain descriptor and the spec's
concrete scenario (`API_KEY`, `billing`, `prod`, version `1.0.0`). -/
theorem claim_C1_theorem_witness :
    (keychainDescriptor ∈ allDescriptors) ∧
    SegGood keychainDescriptor "API_KEY".toList ∧
    SegGood keychainDescriptor "billing".toList ∧
    SegGood keychainDescriptor "prod".toList ∧
    parse_key keychainDescriptor
        (build_key keychainDescriptor "API_KEY".toList "billing".toList
          "prod".toList ("1".toList ++ '.' :: ("0".toList ++ '.' :: "0".toList))) =
      some { pfx := keychainDescriptor.pfx, project := "billing".toList,
             domain := "prod".toList,
             version := "1".toList ++ '.' :: ("0".toList ++ '.' :: "0".toList),
             name := "API_KEY".toList } :=
  ⟨by decide, by decide, by decide, by decide,
   claim_C1_theorem keychainDescriptor (by decide) _ _ _
     (by decide) (by decide) (by decide) "1".toList "0".toList "0".toList
     (by decide) (by decide) (by decide) (by decide) (by decide)⟩

/-! ### JSON round trip: `parseJson (pyJsonDumps l) = some …` -/

theorem char_valid_range (c : Char) :
    c.toNat < 0xd800 ∨ (0xe000 ≤ c.toNat ∧ c.toNat < 0x110000) := by
  have h := c.valid
  rcases h with h | h
  · exact Or.inl h
  · exact Or.inr h

theorem hexVal_hexDigitChar {n : Nat} (h : n < 16) :
    hexVal (hexDigitChar n) = some n := by
  interval_cases n <;> decide

theorem parseHex4_hex4 {n : Nat} (h : n < 65536) (rest : Str) :
    parseHex4 (hex4 n ++ rest) = some (n, rest) := by
  have h1 : hexVal (hexDigitChar (n / 4096 % 16)) = some (n / 4096 % 16) :=
    hexVal_hexDigitChar (Nat.mod_lt _ (by norm_num))
  have h2 : hexVal (hexDigitChar (n / 256 % 16)) = some (n / 256 % 16) :=
    hexVal_hexDigitChar (Nat.mod_lt _ (by norm_num))
  have h3 : hexVal (hexDigitChar (n / 16 % 16)) = some (n / 16 % 16) :=
    hexVal_hexDigitChar (Nat.mod_lt _ (by norm_num))
  have h4 : hexVal (hexDigitChar (n % 16)) = some (n % 16) :=
    hexVal_hexDigitChar (Nat.mod_lt _ (by norm_num))
  show parseHex4 (hexDigitChar (n / 4096 % 16) :: hexDigitChar (n / 256 % 16) ::
      hexDigitChar (n / 16 % 16) :: hexDigitChar (n % 16) :: rest) = some (n, rest)
  simp only [parseHex4, h1, h2, h3, h4]
  have hn : ((n / 4096 % 16 * 16 + n / 256 % 16) * 16 + n / 16 % 16) * 16 + n % 16 = n := by
    omega
  rw [hn]

theorem escBody_cons (c : Char) (s : Str) :
    escBody (c :: s) = escChar c ++ escBody s := rfl

/-- The surrogate-pair branch of the string parser recombines the code
point encoded by `escChar` for an astral character. -/
theorem parseStringBody_surrPair (ch : Char) (s1 rest : Str) (f A B : Nat)
    (hrec : parseStringBody f (escBody s1 ++ '"' :: rest) = some (s1, rest))
    (hA : 0xd800 ≤ A ∧ A ≤ 0xdbff) (hB : 0xdc00 ≤ B ∧ B ≤ 0xdfff)
    (hch : 0x10000 + (A - 0xd800) * 0x400 + (B - 0xdc00) = ch.toNat) :
    parseStringBody (f + 1)
      ('\\' :: 'u' :: (hex4 A ++
        ('\\' :: 'u' :: (hex4 B ++
          (escBody s1 ++ '"' :: rest))))) = some (ch :: s1, rest) := by
  have hAlt : A < 65536 := by omega
  have hBlt : B < 65536 := by omega
  simp [parseStringBody, parseHex4_hex4 hAlt, parseHex4_hex4 hBlt, hA, hB, hrec]
  rw [hch, Char.ofNat_toNat]

/-- One encoded character is parsed back. -/
theorem parseStringBody_escChar (c : Char) (s1 rest : Str) (f : Nat)
    (hrec : parseStringBody f (escBody s1 ++ '"' :: rest) = some (s1, rest)) :
    parseStringBody (f + 1) (escChar c ++ (escBody s1 ++ '"' :: rest)) =
      some (c :: s1, rest) := by
  by_cases h1 : c = '"'
  · subst h1
    show parseStringBody (f + 1) ('\\' :: '"' :: (escBody s1 ++ '"' :: rest)) = _
    simp [parseStringBody, hrec]
  by_cases h2 : c = '\\'
  · subst h2
    show parseStringBody (f + 1) ('\\' :: '\\' :: (escBody s1 ++ '"' :: rest)) = _
    simp [parseStringBody, hrec]
  by_cases h3 : c = '\n'
  · subst h3
    show parseStringBody (f + 1) ('\\' :: 'n' :: (escBody s1 ++ '"' :: rest)) = _
    simp [parseStringBody, hrec]
  by_cases h4 : c = '\r'
  · subst h4
    show parseStringBody (f + 1) ('\\' :: 'r' :: (escBody s1 ++ '"' :: rest)) = _
    simp [parseStringBody, hrec]
  by_cases h5 : c = '\t'
  · subst h5
    show parseStringBody (f + 1) ('\\' :: 't' :: (escBody s1 ++ '"' :: rest)) = _
    simp [parseStringBody, hrec]
  by_cases h6 : c = '\x08'
  · subst h6
    show parseStringBody (f + 1) ('\\' :: 'b' :: (escBody s1 ++ '"' :: rest)) = _
    simp [parseStringBody, hrec]
  by_cases h7 : c = '\x0c'
  · subst h7
    show parseStringBody (f + 1) ('\\' :: 'f' :: (escBody s1 ++ '"' :: rest)) = _
    simp [parseStringBody, hrec]
  by_cases h8 : 0x20 ≤ c.toNat ∧ c.toNat ≤ 0x7e
  · have he : escChar c = [c] := by
      unfold escChar
      rw [if_neg h1, if_neg h2, if_neg h3, if_neg h4, if_neg h5, if_neg h6, if_neg h7,
        if_pos h8]
    rw [he]
    show parseStringBody (f + 1) (c :: (escBody s1 ++ '"' :: rest)) = _
    simp only [parseStringBody]
    rw [if_neg h1, if_neg h2, if_neg (Nat.not_lt.mpr h8.1), hrec]
  by_cases h9 : c.toNat < 0x10000
  · have he : escChar c = '\\' :: 'u' :: hex4 c.toNat := by
      unfold escChar
      rw [if_neg h1, if_neg h2, if_neg h3, if_neg h4, if_neg h5, if_neg h6, if_neg h7,
        if_neg h8, if_pos h9]
    rw [he]
    show parseStringBody (f + 1)
        ('\\' :: 'u' :: (hex4 c.toNat ++ (escBody s1 ++ '"' :: rest))) = _
    have hval := char_valid_range c
    have hs1 : ¬ (0xd800 ≤ c.toNat ∧ c.toNat ≤ 0xdbff) := by omega
    have hs2 : ¬ (0xdc00 ≤ c.toNat ∧ c.toNat ≤ 0xdfff) := by omega
    simp [parseStringBody, parseHex4_hex4 h9, hs1, hs2, hrec, Char.ofNat_toNat]
  · have he : escChar c =
        ('\\' :: 'u' :: hex4 (0xd800 + (c.toNat - 0x10000) / 0x400)) ++
        ('\\' :: 'u' :: hex4 (0xdc00 + (c.toNat - 0x10000) % 0x400)) := by
      unfold escChar
      rw [if_neg h1, if_neg h2, if_neg h3, if_neg h4, if_neg h5, if_neg h6, if_neg h7,
        if_neg h8, if_neg h9]
    rw [he]
    simp only [List.cons_append, List.append_assoc]
    have hval := char_valid_range c
    have hmodlt := Nat.mod_lt (c.toNat - 0x10000) (show 0 < 0x400 by norm_num)
    exact parseStringBody_surrPair c s1 rest f _ _ hrec ⟨by omega, by omega⟩
      ⟨by omega, by omega⟩ (by omega)

/-- The encoded body of a string is parsed back, with any fuel above the
number of characters. -/
theorem parseStringBody_escBody (s1 : Str) : ∀ (f : Nat) (rest : Str), s1.length < f →
    parseStringBody f (escBody s1 ++ '"' :: rest) = some (s1, rest) := by
  induction s1 with
  | nil =>
    intro f rest hf
    cases f with
    | zero => omega
    | succ f' =>
      show parseStringBody (f' + 1) ('"' :: rest) = some ([], rest)
      simp [parseStringBody]
  | cons c s ih =>
    intro f rest hf
    cases f with
    | zero => omega
    | succ f' =>
      rw [escBody_cons, List.append_assoc]
      exact parseStringBody_escChar c s rest f'
        (ih f' rest (by simp at hf; omega))

theorem escChar_length_pos (c : Char) : 0 < (escChar c).length := by
  unfold escChar
  repeat' split
  all_goals simp [hex4]

theorem length_le_length_escBody (s : Str) : s.length ≤ (escBody s).length := by
  induction s with
  | nil => simp [escBody]
  | cons c s ih =>
    rw [escBody_cons, List.length_append]
    have h := escChar_length_pos c
    simp only [List.length_cons]
    omega

/-- A dumped string literal parses as a JSON value. -/
theorem parseValue_dumpStr (s1 rest : Str) (f : Nat) :
    parseValue (f + 1) (pyJsonDumpStr s1 ++ rest) = some (Json.jstr s1, rest) := by
  have hsh : pyJsonDumpStr s1 ++ rest = '"' :: (escBody s1 ++ '"' :: rest) := by
    simp [pyJsonDumpStr]
  rw [hsh]
  have hps := parseStringBody_escBody s1 ((escBody s1).length + (rest.length + 1) + 1) rest
    (by have h := length_le_length_escBody s1; omega)
  simp [parseValue, hps]

theorem pyJsonCommaSep_cons_shape (y : Str) (ys : List Str) :
    ∃ t, pyJsonCommaSep (y :: ys) = '"' :: t := by
  cases ys with
  | nil => exact ⟨escBody y ++ ['"'], rfl⟩
  | cons z zs =>
    exact ⟨(escBody y ++ ['"']) ++ ',' :: ' ' :: pyJsonCommaSep (z :: zs), rfl⟩

theorem length_le_length_commaSep (l : List Str) :
    l.length ≤ (pyJsonCommaSep l).length := by
  induction l with
  | nil => simp [pyJsonCommaSep]
  | cons x xs ih =>
    cases xs with
    | nil => simp [pyJsonCommaSep, pyJsonDumpStr]
    | cons y ys =>
      show (x :: y :: ys).length ≤
        (pyJsonDumpStr x ++ ',' :: ' ' :: pyJsonCommaSep (y :: ys)).length
      simp only [List.length_append, List.length_cons, pyJsonDumpStr] at *
      omega

/-- One-step unfolding of `parseElems`. -/
theorem parseElems_succ (f : Nat) (s : Str) :
    parseElems (f + 1) s =
      match parseValue f s with
      | none => none
      | some (v, rest) =>
        match skipWs rest with
        | ',' :: r2 =>
          match parseElems f (skipWs r2) with
          | some (vs, r) => some (v :: vs, r)
          | none => none
        | ']' :: r2 => some ([v], r2)
        | _ => none := rfl

/-- The comma-separated dump of a non-empty list of strings, followed by
the closing bracket, parses as the list of elements. -/
theorem parseElems_dump (l : List Str) : ∀ f : Nat, l ≠ [] → l.length < f →
    parseElems f (pyJsonCommaSep l ++ [']']) = some (l.map Json.jstr, []) := by
  induction l with
  | nil => intro f hne hf; cases hne rfl
  | cons x xs ih =>
    intro f _ hf
    simp only [List.length_cons] at hf
    cases f with
    | zero => omega
    | succ f' =>
      cases xs with
      | nil =>
        cases f' with
        | zero => omega
        | succ f'' =>
          show parseElems (f'' + 1 + 1) (pyJsonDumpStr x ++ [']']) = some ([Json.jstr x], [])
          rw [parseElems_succ, parseValue_dumpStr]
          rfl
      | cons y ys =>
        simp only [List.length_cons] at hf
        cases f' with
        | zero => omega
        | succ f'' =>
          have hsh : pyJsonCommaSep (x :: y :: ys) ++ [']'] =
              pyJsonDumpStr x ++ (',' :: ' ' :: (pyJsonCommaSep (y :: ys) ++ [']'])) := by
            show (pyJsonDumpStr x ++ ',' :: ' ' :: pyJsonCommaSep (y :: ys)) ++ [']'] = _
            simp
          rw [hsh, parseElems_succ, parseValue_dumpStr]
          obtain ⟨t, ht⟩ := pyJsonCommaSep_cons_shape y ys
          have hT : List.dropWhile jsonWsChar (pyJsonCommaSep (y :: ys) ++ [']']) =
              pyJsonCommaSep (y :: ys) ++ [']'] := by
            rw [ht]
            simp [jsonWsChar]
          have hel := ih (f'' + 1) (by simp)
            (by simp only [List.length_cons]; omega)
          simp [skipWs, jsonWsChar, hT, hel]

/-- The full dump of a list of strings parses as a JSON array of those
strings. -/
theorem parseValue_dumps (l : List Str) (f : Nat) (hf : l.length < f) :
    parseValue (f + 1) (pyJsonDumps l) = some (Json.jarr (l.map Json.jstr), []) := by
  cases l with
  | nil => rfl
  | cons y ys =>
    show parseValue (f + 1) ('[' :: (pyJsonCommaSep (y :: ys) ++ [']'])) = _
    obtain ⟨t, ht⟩ := pyJsonCommaSep_cons_shape y ys
    have hT : List.dropWhile jsonWsChar (pyJsonCommaSep (y :: ys) ++ [']']) =
        pyJsonCommaSep (y :: ys) ++ [']'] := by
      rw [ht]
      simp [jsonWsChar]
    have hel := parseElems_dump (y :: ys) f (by simp) hf
    simp only [ht, List.cons_append] at hT hel
    simp [parseValue, skipWs, jsonWsChar, ht, hT, hel]

theorem parseJson_dumps (l : List Str) :
    parseJson (pyJsonDumps l) = some (Json.jarr (l.map Json.jstr)) := by
  unfold parseJson
  have h0 : skipWs (pyJsonDumps l) = pyJsonDumps l := by
    show skipWs ('[' :: (pyJsonCommaSep l ++ [']'])) = _
    simp [skipWs, jsonWsChar, pyJsonDumps]
  rw [h0]
  have hlen : l.length < (pyJsonDumps l).length := by
    have h := length_le_length_commaSep l
    show l.length < ('[' :: (pyJsonCommaSep l ++ [']'])).length
    simp only [List.length_cons, List.length_append]
    omega
  rw [parseValue_dumps l (pyJsonDumps l).length hlen]
  rfl

theorem jsonStrings_map (l : List Str) : jsonStrings (l.map Json.jstr) = some l := by
  induction l with
  | nil => rfl
  | cons x xs ih => simp [jsonStrings, ih]

/-- Decoding inverts dumping: the JSON round trip for lists of strings. -/
theorem decodeStrListRaw_dumps (l : List Str) : decodeStrListRaw (pyJsonDumps l) = l := by
  unfold decodeStrListRaw
  rw [parseJson_dumps]
  simp [jsonToStrList, jsonStrings_map]

/-! ### `sorted` -/

theorem pySorted_perm (l : List Str) : List.Perm (pySorted l) l := List.perm_insertionSort _ _

theorem pySorted_sorted_le (l : List Str) : (pySorted l).Sorted (· ≤ ·) :=
  List.sorted_insertionSort _ _

theorem pySorted_nodup {l : List Str} (h : l.Nodup) : (pySorted l).Nodup :=
  (pySorted_perm l).nodup_iff.mpr h

theorem pySorted_sorted_lt {l : List Str} (h : l.Nodup) : (pySorted l).Sorted (· < ·) :=
  (pySorted_sorted_le l).lt_of_le (pySorted_nodup h)

theorem pySorted_mem (x : Str) (l : List Str) : x ∈ pySorted l ↔ x ∈ l :=
  (pySorted_perm l).mem_iff

theorem pySorted_eq_nil_iff (l : List Str) : pySorted l = [] ↔ l = [] := by
  rw [← List.length_eq_zero, (pySorted_perm l).length_eq, List.length_eq_zero]

/-! ### Association-list lemmas -/

theorem kvGet_kvSet_self (st : KV) (k v : Str) : kvGet (kvSet st k v) k = some v := by
  simp [kvGet, kvSet, List.find?]

theorem kvGet_kvErase_ne (st : KV) (k k' : Str) (h : k' ≠ k) :
    kvGet (kvErase st k) k' = kvGet st k' := by
  induction st with
  | nil => rfl
  | cons p st ih =>
    by_cases hp : p.1 = k
    · have h1 : kvErase (p :: st) k = kvErase st k := by
        simp [kvErase, List.filter, hp]
      have h2 : kvGet (p :: st) k' = kvGet st k' := by
        simp [kvGet, List.find?, show (p.1 == k') = false from by
          simp [hp]; exact fun hk => h hk.symm]
      rw [h1, h2, ih]
    · have hb : (p.1 == k) = false := by simp [hp]
      have h1 : kvErase (p :: st) k = p :: kvErase st k := by
        simp [kvErase, List.filter_cons, hb]
      rw [h1]
      by_cases hk : p.1 = k'
      · simp [kvGet, List.find?, hk]
      · simp only [kvGet, List.find?, show (p.1 == k') = false from by simp [hk]]
        exact ih

theorem kvGet_kvErase_self (st : KV) (k : Str) : kvGet (kvErase st k) k = none := by
  induction st with
  | nil => rfl
  | cons p st ih =>
    by_cases hp : p.1 = k
    · have h1 : kvErase (p :: st) k = kvErase st k := by
        simp [kvErase, List.filter, hp]
      rw [h1, ih]
    · have hb : (p.1 == k) = false := by simp [hp]
      have h1 : kvErase (p :: st) k = p :: kvErase st k := by
        simp [kvErase, List.filter_cons, hb]
      rw [h1]
      simp only [kvGet, List.find?, hb]
      exact ih

theorem kvGet_kvSet_ne (st : KV) (k k' v : Str) (h : k' ≠ k) :
    kvGet (kvSet st k v) k' = kvGet st k' := by
  show kvGet ((k, v) :: kvErase st k) k' = kvGet st k'
  simp only [kvGet, List.find?, show (k == k') = false from by
    simp; exact fun hk => h hk.symm]
  exact kvGet_kvErase_ne st k k' h

theorem kvErase_of_get_none (st : KV) (k : Str) (h : kvGet st k = none) :
    kvErase st k = st := by
  induction st with
  | nil => rfl
  | cons p st ih =>
    by_cases hp : p.1 = k
    · exfalso
      simp [kvGet, List.find?, hp] at h
    · have hb : (p.1 == k) = false := by simp [hp]
      have h2 : kvGet st k = none := by
        simp only [kvGet, List.find?, hb] at h
        exact h
      have h3 := ih h2
      show List.filter (fun p => !(p.1 == k)) (p :: st) = p :: st
      rw [List.filter_cons]
      simp only [hb, Bool.not_false, if_true]
      rw [show List.filter (fun p => !(p.1 == k)) st = kvErase st k from rfl, h3]

/-! ### The three kinds of usernames are distinct -/

theorem append_slash_inj {a b x y : Str} (ha : '/' ∉ a) (hb : '/' ∉ b)
    (h : a ++ '/' :: x = b ++ '/' :: y) : a = b ∧ x = y := by
  induction a generalizing b with
  | nil =>
    cases b with
    | nil => simpa using h
    | cons d bs =>
      exfalso
      simp only [List.nil_append, List.cons_append, List.cons.injEq] at h
      exact hb (h.1 ▸ List.mem_cons_self d bs)
  | cons c as ih =>
    cases b with
    | nil =>
      exfalso
      simp only [List.nil_append, List.cons_append, List.cons.injEq] at h
      exact ha (h.1.symm ▸ List.mem_cons_self c as)
    | cons d bs =>
      simp only [List.cons_append, List.cons.injEq] at h
      have h2 := ih (fun hm => ha (List.mem_cons_of_mem c hm))
        (fun hm => hb (List.mem_cons_of_mem d hm)) h.2
      exact ⟨by rw [h.1, h2.1], h2.2⟩

theorem slash_mem_append_cons (a x : Str) : '/' ∈ a ++ '/' :: x :=
  List.mem_append_right a (List.mem_cons_self _ _)

theorem kcUsername_has_slash (c : KcCfg) (k : Str) : '/' ∈ kcUsername c k := by
  unfold kcUsername
  by_cases h : c.dom = []
  · rw [if_pos h]; exact slash_mem_append_cons _ _
  · rw [if_neg h]; exact slash_mem_append_cons _ _

theorem kcManifestUsername_has_slash (c : KcCfg) : '/' ∈ kcManifestUsername c :=
  slash_mem_append_cons _ _

theorem kcUsername_ne_domainsUsername (c : KcCfg) (k : Str) :
    kcUsername c k ≠ domainsUsername := by
  intro h
  have hs := kcUsername_has_slash c k
  rw [h] at hs
  exact (by decide : '/' ∉ domainsUsername) hs

theorem kcManifestUsername_ne_domainsUsername (c : KcCfg) :
    kcManifestUsername c ≠ domainsUsername := by
  intro h
  have hs := kcManifestUsername_has_slash c
  rw [h] at hs
  exact (by decide : '/' ∉ domainsUsername) hs

theorem kcUsername_ne_manifestUsername (c : KcCfg) (k : Str)
    (hd : c.dom ≠ [] ∨ VerOk c) : kcUsername c k ≠ kcManifestUsername c := by
  unfold kcUsername kcManifestUsername
  by_cases h : c.dom = []
  · rcases hd with hd | hd
    · exact absurd h hd
    · rw [if_pos h, if_pos h]
      intro he
      have h2 := append_slash_inj hd.1 (by decide) he
      exact hd.2 h2.1
  · rw [if_neg h, if_neg h]
    intro he
    rw [List.append_assoc] at he
    have h3 := List.append_cancel_left he
    have h4 : c.ver ++ '/' :: k = manifestKeyTail := by simpa using h3
    have hs : '/' ∈ manifestKeyTail := h4 ▸ slash_mem_append_cons _ _
    exact (by decide : '/' ∉ manifestKeyTail) hs

/-! ### Representation lemmas for the manifest and the domain registry -/

theorem sortedLt_nodup {l : List Str} (h : l.Sorted (· < ·)) : l.Nodup :=
  h.imp ne_of_lt

theorem readManifest_of_rep {c : KcCfg} {st : KV} {m : List Str}
    (h : ManifestRep c st m) : kcReadManifest c st = m := by
  unfold kcReadManifest
  rcases h with ⟨h1, h2⟩ | ⟨h1, h2⟩
  · rw [h1, h2]
  · rw [h1]
    exact decodeStrListRaw_dumps m

theorem listDomains_of_rep {st : KV} {ds : List Str}
    (h : DomainsRep st ds) : kcListDomains st = ds := by
  unfold kcListDomains
  rcases h with ⟨h1, h2⟩ | ⟨h1, h2, h3⟩
  · rw [h1, h2]
  · rw [h1]
    exact decodeStrListRaw_dumps ds

theorem ManifestRep_sorted {c : KcCfg} {st : KV} {m : List Str}
    (h : ManifestRep c st m) : m.Sorted (· < ·) := by
  rcases h with ⟨h1, h2⟩ | ⟨h1, h2⟩
  · rw [h2]; exact List.sorted_nil
  · exact h2

theorem DomainsRep_sorted {st : KV} {ds : List Str}
    (h : DomainsRep st ds) : ds.Sorted (· < ·) := by
  rcases h with ⟨h1, h2⟩ | ⟨h1, h2, h3⟩
  · rw [h2]; exact List.sorted_nil
  · exact h2

theorem ManifestRep_congr {c : KcCfg} {st st' : KV} {m : List Str}
    (hg : kvGet st' (kcManifestUsername c) = kvGet st (kcManifestUsername c))
    (h : ManifestRep c st m) : ManifestRep c st' m := by
  unfold ManifestRep at h ⊢
  rw [hg]
  exact h

theorem DomainsRep_congr {st st' : KV} {ds : List Str}
    (hg : kvGet st' domainsUsername = kvGet st domainsUsername)
    (h : DomainsRep st ds) : DomainsRep st' ds := by
  unfold DomainsRep at h ⊢
  rw [hg]
  exact h

theorem ManifestRep_write (c : KcCfg) (st : KV) (keys : List Str) :
    ManifestRep c (kcWriteManifest c st keys) (pySorted keys.dedup) :=
  Or.inr ⟨kvGet_kvSet_self st _ _, pySorted_sorted_lt (List.nodup_dedup keys)⟩

/-! ### Step lemmas -/

theorem kcSet_rep {c : KcCfg} {st : KV} {m ds : List Str}
    (hd : c.dom ≠ [] ∨ VerOk c) (hm : ManifestRep c st m) (hds : DomainsRep st ds)
    (k v : Str) :
    ManifestRep c (kcSet c st k v) (if k ∈ m then m else pySorted (m ++ [k]).dedup) ∧
    DomainsRep (kcSet c st k v) ds := by
  have hn := kcUsername_ne_manifestUsername c k hd
  have hnd := kcUsername_ne_domainsUsername c k
  have hm1 : ManifestRep c (kvSet st (kcUsername c k) v) m :=
    ManifestRep_congr (kvGet_kvSet_ne st _ _ v (Ne.symm hn)) hm
  have hds1 : DomainsRep (kvSet st (kcUsername c k) v) ds :=
    DomainsRep_congr (kvGet_kvSet_ne st _ _ v (Ne.symm hnd)) hds
  unfold kcSet
  dsimp only
  rw [readManifest_of_rep hm1]
  by_cases hk : k ∈ m
  · rw [if_pos hk, if_pos hk]
    exact ⟨hm1, hds1⟩
  · rw [if_neg hk, if_neg hk]
    refine ⟨ManifestRep_write c _ (m ++ [k]), ?_⟩
    exact DomainsRep_congr
      (kvGet_kvSet_ne _ _ _ _ (Ne.symm (kcManifestUsername_ne_domainsUsername c))) hds1

theorem kcRegisterDomain_rep {st : KV} {ds : List Str}
    (hds : DomainsRep st ds) (dom : Str) :
    DomainsRep (kcRegisterDomain st dom) (if dom ∈ ds then ds else pySorted (ds ++ [dom])) ∧
    (∀ c m, ManifestRep c st m → ManifestRep c (kcRegisterDomain st dom) m) := by
  unfold kcRegisterDomain
  dsimp only
  rw [listDomains_of_rep hds]
  by_cases hin : dom ∈ ds
  · rw [if_pos hin, if_pos hin]
    exact ⟨hds, fun c m h => h⟩
  · rw [if_neg hin, if_neg hin]
    constructor
    · refine Or.inr ⟨kvGet_kvSet_self st _ _, ?_, ?_⟩
      · refine pySorted_sorted_lt ?_
        rw [List.nodup_append]
        refine ⟨sortedLt_nodup (DomainsRep_sorted hds), List.nodup_singleton dom, ?_⟩
        intro a ha hb
        rw [List.mem_singleton] at hb
        subst hb
        exact hin ha
      · rw [Ne, pySorted_eq_nil_iff]
        simp
    · intro c m h
      exact ManifestRep_congr
        (kvGet_kvSet_ne _ _ _ _ (kcManifestUsername_ne_domainsUsername c)) h

theorem kcUnregisterDomain_rep {st : KV} {ds : List Str}
    (hds : DomainsRep st ds) (dom : Str) :
    ∃ ds', DomainsRep (kcUnregisterDomain st dom) ds' ∧ dom ∉ ds' ∧
      (dom ∉ ds → ds' = ds) ∧
      (∀ c : KcCfg, kvGet (kcUnregisterDomain st dom) (kcManifestUsername c) =
        kvGet st (kcManifestUsername c)) := by
  unfold kcUnregisterDomain
  dsimp only
  rw [listDomains_of_rep hds]
  by_cases hin : dom ∈ ds
  · rw [if_neg (not_not_intro hin)]
    by_cases h2 : ds.filter (fun d => !(d == dom)) = []
    · rw [if_neg (not_not_intro h2)]
      refine ⟨[], Or.inl ⟨kvGet_kvErase_self st _, rfl⟩, by simp,
        fun hno => absurd hin hno, ?_⟩
      intro c
      exact kvGet_kvErase_ne _ _ _ (kcManifestUsername_ne_domainsUsername c)
    · rw [if_pos h2]
      refine ⟨pySorted (ds.filter (fun d => !(d == dom))), ?_, ?_,
        fun hno => absurd hin hno, ?_⟩
      · refine Or.inr ⟨kvGet_kvSet_self st _ _, ?_, ?_⟩
        · exact pySorted_sorted_lt ((sortedLt_nodup (DomainsRep_sorted hds)).filter _)
        · rw [Ne, pySorted_eq_nil_iff]
          exact h2
      · rw [pySorted_mem, List.mem_filter]
        simp
      · intro c
        exact kvGet_kvSet_ne _ _ _ _ (kcManifestUsername_ne_domainsUsername c)
  · rw [if_pos hin]
    exact ⟨ds, hds, hin, fun _ => rfl, fun c => rfl⟩

theorem erase_sorted_lt {m : List Str} (h : m.Sorted (· < ·)) (k : Str) :
    (m.erase k).Sorted (· < ·) :=
  List.Pairwise.sublist (List.erase_sublist k m) h

theorem pySorted_dedup_of_sorted {m : List Str} (h : m.Sorted (· < ·)) :
    pySorted m.dedup = m := by
  rw [List.dedup_eq_self.mpr (sortedLt_nodup h)]
  exact List.Sorted.insertionSort_eq (h.imp le_of_lt)

/-- `delete` when the key is listed: the manifest becomes `m.erase k`
(written back even when empty), and the registry loses the instance's
domain exactly when the manifest emptied (for a domain-carrying
instance). -/
theorem kcDelete_step_mem {c : KcCfg} {st : KV} {m ds : List Str}
    (hd : c.dom ≠ [] ∨ VerOk c) (hm : ManifestRep c st m) (hds : DomainsRep st ds)
    (k : Str) (hk : k ∈ m) :
    ManifestRep c (kcDelete c st k) (m.erase k) ∧
    kvGet (kcDelete c st k) (kcManifestUsername c) = some (pyJsonDumps (m.erase k)) ∧
    ∃ ds', DomainsRep (kcDelete c st k) ds' ∧
      (m.erase k = [] ∧ c.dom ≠ [] → c.dom ∉ ds') ∧
      (¬(m.erase k = [] ∧ c.dom ≠ []) → ds' = ds) := by
  have hn := kcUsername_ne_manifestUsername c k hd
  have hnd := kcUsername_ne_domainsUsername c k
  have hm1 : ManifestRep c (kvErase st (kcUsername c k)) m :=
    ManifestRep_congr (kvGet_kvErase_ne st _ _ (Ne.symm hn)) hm
  have hds1 : DomainsRep (kvErase st (kcUsername c k)) ds :=
    DomainsRep_congr (kvGet_kvErase_ne st _ _ (Ne.symm hnd)) hds
  have hsor := ManifestRep_sorted hm
  have hw : ManifestRep c
      (kcWriteManifest c (kvErase st (kcUsername c k)) (m.erase k)) (m.erase k) := by
    have h0 := ManifestRep_write c (kvErase st (kcUsername c k)) (m.erase k)
    rwa [pySorted_dedup_of_sorted (erase_sorted_lt hsor k)] at h0
  have hdsw : DomainsRep
      (kcWriteManifest c (kvErase st (kcUsername c k)) (m.erase k)) ds :=
    DomainsRep_congr
      (kvGet_kvSet_ne _ _ _ _ (Ne.symm (kcManifestUsername_ne_domainsUsername c))) hds1
  have hwget : kvGet (kcWriteManifest c (kvErase st (kcUsername c k)) (m.erase k))
      (kcManifestUsername c) = some (pyJsonDumps (m.erase k)) := by
    unfold kcWriteManifest
    rw [kvGet_kvSet_self, pySorted_dedup_of_sorted (erase_sorted_lt hsor k)]
  unfold kcDelete
  dsimp only
  rw [readManifest_of_rep hm1, if_pos hk]
  by_cases hc : m.erase k = [] ∧ c.dom ≠ []
  · rw [if_pos hc]
    obtain ⟨ds', hds', hno, hsame, hgpres⟩ := kcUnregisterDomain_rep hdsw c.dom
    refine ⟨ManifestRep_congr (hgpres c) hw, ?_, ds', hds', fun _ => hno,
      fun hcc => absurd hc hcc⟩
    rw [hgpres c]
    exact hwget
  · rw [if_neg hc]
    exact ⟨hw, hwget, ds, hdsw, fun hcc => absurd hcc hc, fun _ => rfl⟩

/-- `delete` when the key is not listed only erases the physical entry. -/
theorem kcDelete_step_notmem {c : KcCfg} {st : KV} {m ds : List Str}
    (hd : c.dom ≠ [] ∨ VerOk c) (hm : ManifestRep c st m) (hds : DomainsRep st ds)
    (k : Str) (hk : k ∉ m) :
    kcDelete c st k = kvErase st (kcUsername c k) ∧
    ManifestRep c (kcDelete c st k) m ∧ DomainsRep (kcDelete c st k) ds := by
  have hn := kcUsername_ne_manifestUsername c k hd
  have hnd := kcUsername_ne_domainsUsername c k
  have hm1 : ManifestRep c (kvErase st (kcUsername c k)) m :=
    ManifestRep_congr (kvGet_kvErase_ne st _ _ (Ne.symm hn)) hm
  have hds1 : DomainsRep (kvErase st (kcUsername c k)) ds :=
    DomainsRep_congr (kvGet_kvErase_ne st _ _ (Ne.symm hnd)) hds
  have he : kcDelete c st k = kvErase st (kcUsername c k) := by
    unfold kcDelete
    dsimp only
    rw [readManifest_of_rep hm1, if_neg hk]
  rw [he]
  exact ⟨rfl, hm1, hds1⟩

/-! ### Invariant preservation -/

theorem kcStep_invB {c : KcCfg} {st : KV} (hd : c.dom ≠ [] ∨ VerOk c)
    (h : KcInvB c st) (op : KcOp) : KcInvB c (kcStep c st op) := by
  obtain ⟨m, ds, hm, hds⟩ := h
  cases op with
  | set k v =>
    obtain ⟨hm2, hds2⟩ := kcSet_rep hd hm hds k v
    exact ⟨_, ds, hm2, hds2⟩
  | setTracked k v =>
    obtain ⟨hm2, hds2⟩ := kcSet_rep hd hm hds k v
    show KcInvB c (if c.dom ≠ [] then kcRegisterDomain (kcSet c st k v) c.dom
      else kcSet c st k v)
    by_cases hdom : c.dom = []
    · rw [if_neg (not_not_intro hdom)]
      exact ⟨_, ds, hm2, hds2⟩
    · rw [if_pos hdom]
      obtain ⟨hds3, hmp⟩ := kcRegisterDomain_rep hds2 c.dom
      exact ⟨_, _, hmp c _ hm2, hds3⟩
  | del k =>
    by_cases hk : k ∈ m
    · obtain ⟨hm2, _, ds', hds', _, _⟩ := kcDelete_step_mem hd hm hds k hk
      exact ⟨_, ds', hm2, hds'⟩
    · obtain ⟨_, hm2, hds2⟩ := kcDelete_step_notmem hd hm hds k hk
      exact ⟨m, ds, hm2, hds2⟩

theorem kcStep_inv {c : KcCfg} {st : KV} (hdom : c.dom ≠ [])
    (h : KcInv c st) (op : KcOp) (hop : op.isPlainSet = false) :
    KcInv c (kcStep c st op) := by
  obtain ⟨m, ds, hm, hds, hiff⟩ := h
  cases op with
  | set k v => simp [KcOp.isPlainSet] at hop
  | setTracked k v =>
    obtain ⟨hm2, hds2⟩ := kcSet_rep (Or.inl hdom) hm hds k v
    show KcInv c (if c.dom ≠ [] then kcRegisterDomain (kcSet c st k v) c.dom
      else kcSet c st k v)
    rw [if_pos hdom]
    obtain ⟨hds3, hmp⟩ := kcRegisterDomain_rep hds2 c.dom
    refine ⟨_, _, hmp c _ hm2, hds3, ?_⟩
    have hkin : k ∈ (if k ∈ m then m else pySorted (m ++ [k]).dedup) := by
      by_cases hk : k ∈ m
      · rw [if_pos hk]; exact hk
      · rw [if_neg hk, pySorted_mem, List.mem_dedup]
        exact List.mem_append_right m (List.mem_singleton.mpr rfl)
    constructor
    · intro _
      exact List.ne_nil_of_mem hkin
    · intro _
      by_cases hin : c.dom ∈ ds
      · rw [if_pos hin]; exact hin
      · rw [if_neg hin, pySorted_mem]
        exact List.mem_append_right ds (List.mem_singleton.mpr rfl)
  | del k =>
    by_cases hk : k ∈ m
    · obtain ⟨hm2, _, ds', hds', hno, hsame⟩ := kcDelete_step_mem (Or.inl hdom) hm hds k hk
      refine ⟨_, ds', hm2, hds', ?_⟩
      by_cases he : m.erase k = []
      · have h1 := hno ⟨he, hdom⟩
        rw [he]
        simp [h1]
      · have h1 := hsame (fun hcc => he hcc.1)
        subst h1
        constructor
        · intro _; exact he
        · intro _
          exact hiff.mpr (List.ne_nil_of_mem hk)
    · obtain ⟨_, hm2, hds2⟩ := kcDelete_step_notmem (Or.inl hdom) hm hds k hk
      exact ⟨m, ds, hm2, hds2, hiff⟩

theorem KcInvB_nil (c : KcCfg) : KcInvB c [] :=
  ⟨[], [], Or.inl ⟨rfl, rfl⟩, Or.inl ⟨rfl, rfl⟩⟩

theorem KcInv_nil (c : KcCfg) : KcInv c [] :=
  ⟨[], [], Or.inl ⟨rfl, rfl⟩, Or.inl ⟨rfl, rfl⟩, by simp⟩

theorem kcRun_invB (c : KcCfg) (hd : c.dom ≠ [] ∨ VerOk c) (ops : List KcOp) :
    KcInvB c (kcRun c ops) := by
  suffices h : ∀ st, KcInvB c st → KcInvB c (ops.foldl (kcStep c) st) from
    h [] (KcInvB_nil c)
  induction ops with
  | nil => intro st h; exact h
  | cons op ops ih =>
    intro st h
    exact ih _ (kcStep_invB hd h op)

theorem kcRun_inv (c : KcCfg) (hdom : c.dom ≠ []) (ops : List KcOp)
    (hops : ∀ op ∈ ops, op.isPlainSet = false) : KcInv c (kcRun c ops) := by
  suffices h : ∀ st, KcInv c st → KcInv c (ops.foldl (kcStep c) st) from
    h [] (KcInv_nil c)
  induction ops with
  | nil => intro st h; exact h
  | cons op ops ih =>
    intro st h
    exact ih (fun op hop => hops op (List.mem_cons_of_mem _ hop)) _
      (kcStep_inv hdom h op (hops op (List.mem_cons_self _ _)))

/-- `delete` of a key that is physically absent and not listed leaves the
state unchanged. -/
theorem kcDelete_absent {c : KcCfg} {st : KV} {k : Str}
    (hg : kcGet c st k = none) (hk : k ∉ kcListKeys c st) :
    kcDelete c st k = st := by
  have hk2 : k ∉ kcReadManifest c st := hk
  unfold kcDelete
  dsimp only
  rw [kvErase_of_get_none st _ hg, if_neg hk2]

/-- C2 (confirmed): starting from an empty backend, after any finite
sequence of `set_with_domain_tracking` and `delete` operations of a
keychain store instance with a domain, the instance's domain is listed in
`list_domains()` if and only if `list_keys()` is non-empty. -/
theorem claim_C2_theorem (c : KcCfg) (hdom : c.dom ≠ []) (ops : List KcOp)
    (hops : ∀ op ∈ ops, op.isPlainSet = false) :
    c.dom ∈ kcListDomains (kcRun c ops) ↔ kcListKeys c (kcRun c ops) ≠ [] := by
  obtain ⟨m, ds, hm, hds, hiff⟩ := kcRun_inv c hdom ops hops
  rw [show kcListKeys c (kcRun c ops) = m from readManifest_of_rep hm,
    listDomains_of_rep hds]
  exact hiff

theorem claim_C2_theorem_witness :
    (("work".toList : Str) ≠ [] ∧
      (∀ op ∈ [KcOp.setTracked "API_KEY".toList "x".toList,
        KcOp.del "OTHER".toList], op.isPlainSet = false)) ∧
    (("work".toList : Str) ∈ kcListDomains (kcRun ⟨"work".toList, "1.0.0".toList⟩
        [KcOp.setTracked "API_KEY".toList "x".toList, KcOp.del "OTHER".toList]) ↔
      kcListKeys ⟨"work".toList, "1.0.0".toList⟩
        (kcRun ⟨"work".toList, "1.0.0".toList⟩
          [KcOp.setTracked "API_KEY".toList "x".toList,
            KcOp.del "OTHER".toList]) ≠ []) :=
  ⟨⟨by decide, by decide⟩,
    claim_C2_theorem ⟨"work".toList, "1.0.0".toList⟩ (by decide) _ (by decide)⟩

/-- C7 counterexample: after `set` then `delete` of the same name, the
manifest entry is NOT deleted from the backend: it remains present,
holding the JSON dump of the empty list. -/
theorem claim_C7_counterexample :
    kvGet (kcRun ⟨"work".toList, "1.0.0".toList⟩
        [KcOp.setTracked "A".toList "1".toList, KcOp.del "A".toList])
      (kcManifestUsername ⟨"work".toList, "1.0.0".toList⟩) =
      some ("[]".toList) := by decide

/-- C7 (amended): `delete(name)` of a listed name removes it from the
manifest; when the manifest thereby becomes empty the EMPTY manifest is
written back (the entry remains present, storing `"[]"`), and the
instance's domain is unregistered; `list_keys()` becomes empty. -/
theorem claim_C7_theorem {c : KcCfg} {st : KV} {m ds : List Str}
    (hdom : c.dom ≠ []) (hm : ManifestRep c st m) (hds : DomainsRep st ds)
    (k : Str) (hk : k ∈ m) (he : m.erase k = []) :
    kvGet (kcDelete c st k) (kcManifestUsername c) = some (pyJsonDumps []) ∧
    kcListKeys c (kcDelete c st k) = [] ∧
    c.dom ∉ kcListDomains (kcDelete c st k) := by
  obtain ⟨hm2, hget, ds', hds', hno, hsame⟩ :=
    kcDelete_step_mem (Or.inl hdom) hm hds k hk
  rw [he] at hm2 hget
  refine ⟨hget, ?_, ?_⟩
  · exact readManifest_of_rep hm2
  · rw [listDomains_of_rep hds']
    exact hno ⟨he, hdom⟩

theorem claim_C7_theorem_witness :
    (("work".toList : Str) ≠ [] ∧
      ("A".toList : Str) ∈ ["A".toList] ∧ (["A".toList].erase "A".toList = []) ∧
      ManifestRep ⟨"work".toList, "1.0.0".toList⟩
        (kcRun ⟨"work".toList, "1.0.0".toList⟩
          [KcOp.setTracked "A".toList "1".toList]) ["A".toList] ∧
      DomainsRep (kcRun ⟨"work".toList, "1.0.0".toList⟩
          [KcOp.setTracked "A".toList "1".toList]) ["work".toList]) ∧
    (kvGet (kcDelete ⟨"work".toList, "1.0.0".toList⟩
        (kcRun ⟨"work".toList, "1.0.0".toList⟩
          [KcOp.setTracked "A".toList "1".toList]) "A".toList)
      (kcManifestUsername ⟨"work".toList, "1.0.0".toList⟩) =
        some (pyJsonDumps []) ∧
      kcListKeys ⟨"work".toList, "1.0.0".toList⟩
        (kcDelete ⟨"work".toList, "1.0.0".toList⟩
          (kcRun ⟨"work".toList, "1.0.0".toList⟩
            [KcOp.setTracked "A".toList "1".toList]) "A".toList) = [] ∧
      ("work".toList : Str) ∉ kcListDomains
        (kcDelete ⟨"work".toList, "1.0.0".toList⟩
          (kcRun ⟨"work".toList, "1.0.0".toList⟩
            [KcOp.setTracked "A".toList "1".toList]) "A".toList)) := by
  have hm : ManifestRep ⟨"work".toList, "1.0.0".toList⟩
      (kcRun ⟨"work".toList, "1.0.0".toList⟩
        [KcOp.setTracked "A".toList "1".toList]) ["A".toList] :=
    Or.inr ⟨by decide, by decide⟩
  have hds : DomainsRep (kcRun ⟨"work".toList, "1.0.0".toList⟩
      [KcOp.setTracked "A".toList "1".toList]) ["work".toList] :=
    Or.inr ⟨by decide, by decide, by decide⟩
  exact ⟨⟨by decide, by decide, by decide, hm, hds⟩,
    claim_C7_theorem (by decide) hm hds "A".toList (by decide) (by decide)⟩

/-- C8 (confirmed): `delete` of a name that is physically absent and not
listed is a no-op both times (deletion errors are swallowed), leaves
`list_keys()` unchanged, and `get` of the absent name returns `none`
rather than raising. -/
theorem claim_C8_theorem {c : KcCfg} {st : KV} (k : Str)
    (hg : kcGet c st k = none) (hk : k ∉ kcListKeys c st) :
    kcDelete c st k = st ∧
    kcDelete c (kcDelete c st k) k = st ∧
    kcListKeys c (kcDelete c st k) = kcListKeys c st ∧
    kcGet c (kcDelete c st k) k = none := by
  have h1 : kcDelete c st k = st := kcDelete_absent hg hk
  rw [h1]
  exact ⟨rfl, h1, rfl, hg⟩

theorem claim_C8_theorem_witness :
    (kcGet ⟨"work".toList, "1.0.0".toList⟩
        (kcRun ⟨"work".toList, "1.0.0".toList⟩
          [KcOp.setTracked "A".toList "1".toList]) "B".toList = none ∧
      ("B".toList : Str) ∉ kcListKeys ⟨"work".toList, "1.0.0".toList⟩
        (kcRun ⟨"work".toList, "1.0.0".toList⟩
          [KcOp.setTracked "A".toList "1".toList])) ∧
    kcDelete ⟨"work".toList, "1.0.0".toList⟩
        (kcRun ⟨"work".toList, "1.0.0".toList⟩
          [KcOp.setTracked "A".toList "1".toList]) "B".toList =
      kcRun ⟨"work".toList, "1.0.0".toList⟩
        [KcOp.setTracked "A".toList "1".toList] :=
  ⟨⟨by decide, by decide⟩,
    ( claim_C8_theorem "B".toList (by decide) (by decide)).1⟩

/-- C9 (confirmed): after any finite sequence of `set`, `delete` and
`set_with_domain_tracking` operations from an empty backend (with the
validated version string, which contains no slash and is not `_global`),
`list_keys()` and `list_domains()` are strictly sorted ascending and
contain no duplicates. -/
theorem claim_C9_theorem (c : KcCfg) (hv : VerOk c) (ops : List KcOp) :
    (kcListKeys c (kcRun c ops)).Sorted (· ≤ ·) ∧
    (kcListKeys c (kcRun c ops)).Nodup ∧
    (kcListDomains (kcRun c ops)).Sorted (· ≤ ·) ∧
    (kcListDomains (kcRun c ops)).Nodup := by
  obtain ⟨m, ds, hm, hds⟩ := kcRun_invB c (Or.inr hv) ops
  rw [show kcListKeys c (kcRun c ops) = m from readManifest_of_rep hm,
    listDomains_of_rep hds]
  exact ⟨(ManifestRep_sorted hm).imp le_of_lt, sortedLt_nodup (ManifestRep_sorted hm),
    (DomainsRep_sorted hds).imp le_of_lt, sortedLt_nodup (DomainsRep_sorted hds)⟩

theorem claim_C9_theorem_witness :
    VerOk ⟨"work".toList, "1.0.0".toList⟩ ∧
    ((kcListKeys ⟨"work".toList, "1.0.0".toList⟩
        (kcRun ⟨"work".toList, "1.0.0".toList⟩
          [KcOp.setTracked "B".toList "2".toList,
            KcOp.set "A".toList "1".toList])).Sorted (· ≤ ·) ∧
      (kcListKeys ⟨"work".toList, "1.0.0".toList⟩
        (kcRun ⟨"work".toList, "1.0.0".toList⟩
          [KcOp.setTracked "B".toList "2".toList,
            KcOp.set "A".toList "1".toList])).Nodup ∧
      (kcListDomains (kcRun ⟨"work".toList, "1.0.0".toList⟩
          [KcOp.setTracked "B".toList "2".toList,
            KcOp.set "A".toList "1".toList])).Sorted (· ≤ ·) ∧
      (kcListDomains (kcRun ⟨"work".toList, "1.0.0".toList⟩
          [KcOp.setTracked "B".toList "2".toList,
            KcOp.set "A".toList "1".toList])).Nodup) :=
  ⟨⟨by decide, by decide⟩,
    claim_C9_theorem ⟨"work".toList, "1.0.0".toList⟩ ⟨by decide, by decide⟩ _⟩

/-- C10 (confirmed): when the stored manifest or domain-registry entry is
absent, or present but not valid JSON, reading yields the empty list:
`list_keys()` and `list_domains()` are total and never propagate a JSON
decoding error. -/
theorem claim_C10_theorem (c : KcCfg) (st : KV) :
    (kvGet st (kcManifestUsername c) = none → kcListKeys c st = []) ∧
    (∀ raw, kvGet st (kcManifestUsername c) = some raw → parseJson raw = none →
      kcListKeys c st = []) ∧
    (kvGet st domainsUsername = none → kcListDomains st = []) ∧
    (∀ raw, kvGet st domainsUsername = some raw → parseJson raw = none →
      kcListDomains st = []) := by
  refine ⟨?_, ?_, ?_, ?_⟩
  · intro h
    show kcReadManifest c st = []
    unfold kcReadManifest
    rw [h]
  · intro raw h hp
    show kcReadManifest c st = []
    unfold kcReadManifest
    rw [h]
    show decodeStrListRaw raw = []
    unfold decodeStrListRaw
    rw [hp]
  · intro h
    unfold kcListDomains
    rw [h]
  · intro raw h hp
    unfold kcListDomains
    rw [h]
    show decodeStrListRaw raw = []
    unfold decodeStrListRaw
    rw [hp]

theorem claim_C10_theorem_witness :
    (kvGet [(domainsUsername, "not json".toList)]
        (kcManifestUsername ⟨"work".toList, "1.0.0".toList⟩) = none ∧
      kvGet [(domainsUsername, "not json".toList)] domainsUsername =
        some ("not json".toList) ∧
      parseJson "not json".toList = none) ∧
    (kcListKeys ⟨"work".toList, "1.0.0".toList⟩
        [(domainsUsername, "not json".toList)] = [] ∧
      kcListDomains [(domainsUsername, "not json".toList)] = []) :=
  ⟨⟨by decide, by decide, by rfl⟩,
    ( claim_C10_theorem ⟨"work".toList, "1.0.0".toList⟩
        [(domainsUsername, "not json".toList)]).1 (by decide),
    ( claim_C10_theorem ⟨"work".toList, "1.0.0".toList⟩
        [(domainsUsername, "not json".toList)]).2.2.2 "not json".toList
      (by decide) (by rfl)⟩


end Enveloper
